import Mathlib

/-!
Verification of the deps_on_demand optional-dependency shim package.

The development shallowly embeds the core of the repository:
* the member classifier classify_value and the summary-graph builder
  build_summary from cli.py (iterative worklist version);
* the shim runtime (_ShimRuntime, _ShimNamespace, _MissingTypeMeta) and the
  resolution facade (LazyModuleProxy._load) from shim_tooling.py;
* the explicit-submodule path trie, modelled from the specification (its
  consumer is not part of the sources, only the producer of explicit paths
  in cli.py main is).

Python machine-level aspects are made explicit: object identity is an
integer id, exceptions are an inductive type threaded through Except,
dict/set state is association lists, and reference identity of proxy
objects is an allocation counter.
-/

namespace DepsOnDemand

/-! ## Association-list helpers (model of Python dict operations) -/

/-- Lookup in an association list; model of Python dict subscript / bracket get. -/
def lookupA {α β : Type} [DecidableEq α] : List (α × β) → α → Option β
  | [], _ => none
  | (k0, v0) :: rest, k => if k = k0 then some v0 else lookupA rest k

/-- Dict assignment d[k] = v: replaces an existing binding in place, else appends. -/

def updateA {α β : Type} [DecidableEq α] : List (α × β) → α → β → List (α × β)
  | [], k, v => [(k, v)]
  | (k0, v0) :: rest, k, v =>
    if k = k0 then (k, v) :: rest else (k0, v0) :: updateA rest k v

inductive PyErr : Type where
  | moduleNotFound (msg : String)
  | attributeError (nm : String)
  | typeError (msg : String)
  | keyError (k : String)
  | runtimeError (msg : String)
  | assertionError (msg : String)
  | other (tag : Nat)
deriving DecidableEq, Repr

/-- INSTALL_MESSAGE constant from shim_tooling.py. -/

def INSTALL_MESSAGE : String := "pip install .[misc]"

/-- _missing_dep_error from shim_tooling.py: builds a ModuleNotFoundError whose
message names the module and the install hint. -/

def missing_dep_error (modname : String) : PyErr :=
  .moduleNotFound ("Optional dependency " ++ modname ++
    " is required for this feature. Install it with: " ++ INSTALL_MESSAGE)

/-! ## Member classifier (classify_value in cli.py) -/

/-- The slots of a Python value that classify_value inspects: the inspect
module predicates, the direct dunder-module attribute, and callability. -/

structure PyValue : Type where
  isModule : Bool
  isClass : Bool
  moduleAttr : Option String
  isFunction : Bool
  isBuiltin : Bool
  isMethodDescriptor : Bool
  isCallable : Bool
deriving DecidableEq, Repr

/-- The four classification outcomes of classify_value, as the strings
used by the code: ns, type, fn, eager. -/

inductive ClassKind : Type where
  | ns
  | type
  | fn
  | eager
deriving DecidableEq, Repr

/-- classify_value from cli.py: module to ns; class to eager when its
dunder-module attribute is builtins, else to type; function, builtin or
method descriptor to fn; any other callable to eager; everything else eager. -/

def classify_value (v : PyValue) : ClassKind :=
  if v.isModule then .ns
  else if v.isClass then
    (if v.moduleAttr = some "builtins" then .eager else .type)
  else if v.isFunction || v.isBuiltin || v.isMethodDescriptor then .fn
  else if v.isCallable then .eager
  else .eager

/-- The four structural kinds named by the specification. -/

inductive SpecKind : Type where
  | Namespace
  | TypeKind
  | Callable
  | Opaque
deriving DecidableEq, Repr

/-- Membership in the foundational / primitive type set of the host
environment, per the specification wording: the built-in types, recognized
through the builtins module of origin. -/

def inFoundationalTypeSet (v : PyValue) : Bool :=
  v.moduleAttr == some "builtins"

/-- Classification rules, written from the specification wording, in its
priority order: a module-like grouping object is a Namespace; a class is a
TypeKind unless it belongs to the foundational type set of the host
environment, in which case Opaque; a free function or built-in callable
descriptor is a Callable; anything else with call capability is Opaque;
everything else is Opaque. -/

def classify_spec (v : PyValue) : SpecKind :=
  if v.isModule then .Namespace
  else if v.isClass && inFoundationalTypeSet v then .Opaque
  else if v.isClass then .TypeKind
  else if v.isFunction || v.isBuiltin || v.isMethodDescriptor then .Callable
  else if v.isCallable then .Opaque
  else .Opaque

/-- Correspondence of the code classification to the spec categories. -/

def kindToSpec : ClassKind → SpecKind
  | .ns => .Namespace
  | .type => .TypeKind
  | .fn => .Callable
  | .eager => .Opaque

/-- C6: for every value, classify_value implements exactly the spec rules,
applied in the spec priority order: Namespace for a module-like grouping
object; TypeKind for a class unless it is in the foundational built-in type
set, in which case Opaque; Callable for a free function or built-in callable
descriptor; Opaque for any other object with call capability; and Opaque for
everything else. -/

structure JNode : Type where
  kind : String
  children : List (String × Nat)
  eager : List String
deriving DecidableEq, Repr

/-- A proxy object manufactured by _ShimRuntime.get: the placeholder function
closure, the placeholder type made by _MissingTypeMeta, or a _ShimNamespace.
Namespace and type proxies remember the node sid they interpret. -/

inductive ShimObj : Type where
  | fnObj (ref : Nat)
  | typeObj (ref : Nat) (sid : String)
  | nsObj (ref : Nat) (sid : String)
deriving DecidableEq, Repr

/-- Mutable state of one _ShimRuntime instance: the memo table keyed by sid,
plus the allocation counter supplying object identity. -/

structure RtState : Type where
  memo : List (String × ShimObj)
  fresh : Nat
deriving DecidableEq, Repr

/-- The memo table of a freshly constructed _ShimRuntime is empty. -/

def rtInit : RtState := ⟨[], 0⟩

/-- _ShimRuntime.get: memoized manufacture of the proxy for node_id. A memo
hit returns the stored object unchanged; otherwise the node is read from the
table (KeyError when absent), a proxy is manufactured according to kind, the
memo is updated, and an unknown kind raises RuntimeError. -/

def rtGet (tbl : List (String × JNode)) (st : RtState) (node_id : Nat) :
    Except PyErr (ShimObj × RtState) :=
  let sid := toString node_id
  match lookupA st.memo sid with
  | some o => .ok (o, st)
  | none =>
    match lookupA tbl sid with
    | none => .error (.keyError sid)
    | some n =>
      if n.kind = "fn" then
        let o := ShimObj.fnObj st.fresh
        .ok (o, ⟨(sid, o) :: st.memo, st.fresh + 1⟩)
      else if n.kind = "type" then
        let o := ShimObj.typeObj st.fresh sid
        .ok (o, ⟨(sid, o) :: st.memo, st.fresh + 1⟩)
      else if n.kind = "ns" then
        let o := ShimObj.nsObj st.fresh sid
        .ok (o, ⟨(sid, o) :: st.memo, st.fresh + 1⟩)
      else .error (.runtimeError ("Unknown node kind: " ++ n.kind))

/-- _ShimNamespace.__getattr__: the attribute-lookup operation of a Namespace
proxy over node sid. Reads the node from the runtime table, raises the
missing-dependency error when the name is listed eager, resolves through
children otherwise, and raises AttributeError when the name is unknown. -/

def shimNsGetattr (tbl : List (String × JNode)) (modname : String)
    (st : RtState) (sid : String) (name : String) :
    Except PyErr (ShimObj × RtState) :=
  match lookupA tbl sid with
  | none => .error (.keyError sid)
  | some node =>
    if name ∈ node.eager then .error (missing_dep_error modname)
    else
      match lookupA node.children name with
      | some cid => rtGet tbl st cid
      | none => .error (.attributeError name)

/-- After a successful rtGet the memo holds the returned object under the
sid of the requested node id. -/

def placeholderTypeDictNames : List String :=
  ["__shim_modname__", "_shim_ns", "__getattr__"]

/-- CPython attribute access on the class object T manufactured by the type
branch, for names outside the namespace every class inherits from type and
object: a name in the class dict of T is found; any other name raises
AttributeError, because the metaclass _MissingTypeMeta has no dunder-getattr
hook and the one stored in the dict of T only fires for instances of T. -/

def placeholderTypeGetattr (name : String) : Except PyErr Unit :=
  if name ∈ placeholderTypeDictNames then .ok ()
  else .error (.attributeError name)

/-- The forwarding function _type_getattr that the code binds into the class
dict of T: it delegates to the _ShimNamespace over the same node sid. It is
well defined but, per the CPython protocol above, never invoked by an
attribute access on T itself. -/

def type_getattr_hook (tbl : List (String × JNode)) (modname : String)
    (st : RtState) (sid : String) (name : String) :
    Except PyErr (ShimObj × RtState) :=
  shimNsGetattr tbl modname st sid name

/-- _MissingTypeMeta.__call__: constructing an instance of the placeholder
type raises the missing-dependency error, naming the stored shim modname when
present and the class name otherwise. -/

def missingTypeMetaCall (shimModname : Option String) (clsName : String) :
    Except PyErr Unit :=
  .error (missing_dep_error (shimModname.getD clsName))

/-- The node table of the failing input for C5: the root node 0 is a type
node with one child SOME_CONSTANT pointing at the function node 1. -/

def c5Table : List (String × JNode) :=
  [("0", ⟨"type", [("SOME_CONSTANT", 1)], []⟩), ("1", ⟨"fn", [], []⟩)]

/-- C5, settled against the code: constructing an instance of the placeholder
type does raise the missing-dependency error (first conjunct, the true half
of the claim), but attribute lookup on the placeholder type itself does not
delegate to the namespace proxy: the chained access on SOME_CONSTANT raises
AttributeError (second conjunct), even though the forwarding hook the code
installed would have resolved that very name through the graph (third
conjunct). The claim fails on the code although the in-code comments of the
generated shim state the delegation as intent. -/

inductive SummaryVal : Type where
  | doc (root : Nat) (nodes : List (String × JNode))
  | dirPath (p : String)
deriving DecidableEq, Repr

/-- Subscript summary[nodes-key]: a document yields its node table; a Path is
not subscriptable and raises TypeError. -/

def summaryGetNodes : SummaryVal → Except PyErr (List (String × JNode))
  | .doc _ nodes => .ok nodes
  | .dirPath _ => .error (.typeError "PosixPath object is not subscriptable")

/-- Subscript summary[root-key]: a document yields its root id; a Path is not
subscriptable and raises TypeError. -/

def summaryGetRoot : SummaryVal → Except PyErr Nat
  | .doc root _ => .ok root
  | .dirPath _ => .error (.typeError "PosixPath object is not subscriptable")

/-- What the facade can be resolved to: the real module, or the shim proxy of
the summary root. -/

inductive Resolved : Type where
  | real
  | shim (o : ShimObj)
deriving DecidableEq, Repr

/-- The mutable slots of one LazyModuleProxy instance. -/

structure LazyProxy : Type where
  modname : String
  summary : SummaryVal
  loaded : Bool
  obj : Option Resolved
deriving DecidableEq, Repr

/-- The outcome of the real import attempt of the guarded module: success, or
an exception value. -/

inductive ImportOutcome : Type where
  | succeeds
  | raises (e : PyErr)
deriving DecidableEq, Repr

/-- LazyModuleProxy._load: return the cached resolution when loaded;
otherwise attempt the real import. Only the ModuleNotFoundError class is
caught: for it, a _ShimRuntime is built over summary[nodes-key] and the node
summary[root-key] is resolved, becoming the permanent resolution; every other
exception propagates unchanged, leaving the slots untouched. -/

def lazyLoad (p : LazyProxy) (imp : ImportOutcome) :
    Except PyErr (Option Resolved × LazyProxy) :=
  if p.loaded then .ok (p.obj, p)
  else
    match imp with
    | .succeeds => .ok (some .real, { p with obj := some .real, loaded := true })
    | .raises e =>
      match e with
      | .moduleNotFound _ => do
        let nodes ← summaryGetNodes p.summary
        let root ← summaryGetRoot p.summary
        let res ← rtGet nodes rtInit root
        .ok (some (.shim res.1),
          { p with obj := some (.shim res.1), loaded := true })
      | _ => .error e

/-- C1: for an unresolved facade, every exception of the real import attempt
other than the ModuleNotFoundError class is re-raised to the caller exactly
as it is, and no shim is constructed or returned; the module-not-found class
is the only condition converted into building a shim runtime over the summary
node table and resolving the summary root, which then becomes the permanent
resolution. -/

inductive PathTrie : Type where
  | node (tag : Option (List String)) (kids : List (String × PathTrie))

/-- Modelled from the spec: insert one dotted path (full is the whole path,
the second list the remaining segments) into the trie, tagging the node at
the end of the path with the full concrete path. -/

def trieInsert (full : List String) : PathTrie → List String → PathTrie
  | .node _ kids, [] => .node (some full) kids
  | .node tag kids, seg :: rest =>
    let child := match lookupA kids seg with
      | some c => c
      | none => .node none []
    .node tag (updateA kids seg (trieInsert full child rest))

/-- Modelled from the spec: compile the flat set of explicit child paths into
a Path Trie. -/

def trieOfPaths (paths : List (List String)) : PathTrie :=
  paths.foldl (fun t p => trieInsert p t p) (.node none [])

/-- Walk the trie along a segment list. -/

def trieDescend : PathTrie → List String → Option PathTrie
  | t, [] => some t
  | .node _ kids, seg :: rest =>
    match lookupA kids seg with
    | some c => trieDescend c rest
    | none => none

/-- The tag found at the end of a segment list, when the walk succeeds. -/

def tagAt (t : PathTrie) (q : List String) : Option (List String) :=
  match trieDescend t q with
  | some (.node tag _) => tag
  | none => none

/-- Whether the trie root has a child for the given first segment. -/

def trieRootKid (t : PathTrie) (seg : String) : Bool :=
  match t with
  | .node _ kids => (lookupA kids seg).isSome

/-- Modelled from the spec: the observable outcome of one attribute access
through the facade before real resolution: an Intermediate Namespace carrying
the accumulated path, a forced load of one concrete sub-hierarchy followed by
resolution of the accumulated chain, or plain resolution of the chain. -/

inductive AccessOutcome : Type where
  | intermediate (acc : List String)
  | forceLoad (path : List String) (chain : List String)
  | plainResolve (chain : List String)
deriving DecidableEq, Repr

/-- Modelled from the spec: attribute access on the facade before real
resolution: a name matching a root trie segment returns an Intermediate
Namespace carrying the one-segment accumulated path; otherwise the chain is
resolved directly. -/

def facadePreAccess (t : PathTrie) (name : String) : AccessOutcome :=
  if trieRootKid t name then .intermediate [name] else .plainResolve [name]

/-- Modelled from the spec: attribute access on an Intermediate Namespace
carrying accumulated path acc: when the next segment reaches a trie node
tagged with a concrete path, exactly that sub-hierarchy is force-loaded and
then the full accumulated chain is resolved; an untagged deeper match returns
a deeper Intermediate Namespace; no match falls back to plain resolution. -/

def interAccess (t : PathTrie) (acc : List String) (name : String) :
    AccessOutcome :=
  match trieDescend t (acc ++ [name]) with
  | some (.node (some p) _) => .forceLoad p (acc ++ [name])
  | some (.node none _) => .intermediate (acc ++ [name])
  | none => .plainResolve (acc ++ [name])

structure ObjGraph : Type where
  n : Nat
  val : Nat → PyValue
  classifyFails : Nat → Bool
  dictIsPlain : Nat → Bool
  dictItems : Nat → List (Option String × Nat)

/-- safe_iter_members from cli.py: the items of the direct dict slot when it
is a plain dict, else no members at all. -/

def safe_iter_members (g : ObjGraph) (o : Nat) : List (Option String × Nat) :=
  if g.dictIsPlain o then g.dictItems o else []

/-- is_public_name from cli.py. -/

def is_public_name (name : String) (include_private : Bool) : Bool :=
  include_private || !(name.startsWith "_")

/-- Outcome of the call classify_value(x) on object o: none models the call
raising an exception. -/

def classifyRes (g : ObjGraph) (o : Nat) : Option ClassKind :=
  if g.classifyFails o then none else some (classify_value (g.val o))

/-- The SumNode dataclass of cli.py. -/

structure SumNode : Type where
  kind : ClassKind
  children : List (String × Nat)
  eager : List String
deriving DecidableEq, Repr

/-- Python set add on the eager name set. -/

def addEager (l : List String) (name : String) : List String :=
  if name ∈ l then l else name :: l

/-- The local mutable state of one build_summary call: the identity map
objid_to_nodeid, the node arena, the expanded set, the nid_to_obj map of
scheduled nodes, the id counter, and the explicit worklist to_expand kept as
a stack (append and pop at the same end, modelled at the list head). -/

structure BState : Type where
  objid_to_nodeid : List (Nat × Nat)
  nodes : List (Nat × SumNode)
  expanded : List Nat
  nid_to_obj : List (Nat × Nat)
  next_id : Nat
  to_expand : List (Nat × Nat)
deriving DecidableEq, Repr

/-- All maps start empty and ids start at 0. -/

def initBState : BState := ⟨[], [], [], [], 0, []⟩

/-- get_node_id from build_summary: return the existing node id of an object
identity seen before, else allocate the next integer id with an empty node of
the given kind. -/

def get_node_id (st : BState) (o : Nat) (kind : ClassKind) : Nat × BState :=
  match lookupA st.objid_to_nodeid o with
  | some nid => (nid, st)
  | none =>
    (st.next_id,
      { st with
        objid_to_nodeid := (o, st.next_id) :: st.objid_to_nodeid,
        nodes := (st.next_id, ⟨kind, [], []⟩) :: st.nodes,
        next_id := st.next_id + 1 })

/-- schedule from build_summary: classify (an exception propagates, and an
eager value is an assertion failure), get or create the node id, and push the
pair onto the worklist unless the id is already expanded or scheduled. -/

def schedule (g : ObjGraph) (st : BState) (o : Nat) :
    Except PyErr (Nat × BState) :=
  match classifyRes g o with
  | none => .error (.other o)
  | some ClassKind.eager =>
    .error (.assertionError "schedule() should not be called for eager values")
  | some k =>
    let r := get_node_id st o k
    if r.1 ∉ r.2.expanded ∧ lookupA r.2.nid_to_obj r.1 = none then
      .ok (r.1, { r.2 with
        nid_to_obj := (r.1, o) :: r.2.nid_to_obj,
        to_expand := (o, r.1) :: r.2.to_expand })
    else .ok (r.1, r.2)

/-- One iteration of the member loop inside the worklist body: skip
non-string names, skip private names, degrade a classification failure or an
eager classification to an eager name, otherwise schedule the member value
and record the child binding. -/

def processMember (g : ObjGraph) (include_private : Bool)
    (acc : BState × SumNode) (entry : Option String × Nat) :
    Except PyErr (BState × SumNode) :=
  match entry.1 with
  | none => .ok acc
  | some name =>
    if is_public_name name include_private then
      match classifyRes g entry.2 with
      | none => .ok (acc.1, { acc.2 with eager := addEager acc.2.eager name })
      | some ClassKind.eager =>
        .ok (acc.1, { acc.2 with eager := addEager acc.2.eager name })
      | some _ => do
        let r ← schedule g acc.1 entry.2
        .ok (r.2, { acc.2 with children := updateA acc.2.children name r.1 })
    else .ok acc

/-- The member loop over the direct members of the popped object. -/

def processMembers (g : ObjGraph) (include_private : Bool) :
    List (Option String × Nat) → BState × SumNode →
    Except PyErr (BState × SumNode)
  | [], acc => .ok acc
  | e :: rest, acc => do
    let acc2 ← processMember g include_private acc e
    processMembers g include_private rest acc2

/-- The worklist loop of build_summary: pop one pair, skip if expanded,
otherwise read the node (KeyError if absent, which never happens), run the
member loop, write the node back and mark the id expanded. The loop is
embedded with an explicit fuel bound; the termination theorem shows the fuel
n+1 never runs out. -/

def buildLoop (g : ObjGraph) (include_private : Bool) :
    Nat → BState → Except PyErr (Option BState)
  | fuel, st =>
    match st.to_expand with
    | [] => .ok (some st)
    | (o, nid) :: rest =>
      match fuel with
      | 0 => .ok none
      | fuel' + 1 =>
        let st1 := { st with to_expand := rest }
        if nid ∈ st1.expanded then buildLoop g include_private fuel' st1
        else
          match lookupA st1.nodes nid with
          | none => .error (.keyError (toString nid))
          | some node => do
            let r ← processMembers g include_private
              (safe_iter_members g o) (st1, node)
            buildLoop g include_private fuel'
              { r.1 with
                nodes := updateA r.1.nodes nid r.2,
                expanded := nid :: r.1.expanded }

/-- Insertion step of the sorting used when serializing (Python sorted). -/

def insertSorted {α : Type} (le : α → α → Bool) (a : α) : List α → List α
  | [] => [a]
  | b :: bs => if le a b then a :: b :: bs else b :: insertSorted le a bs

/-- Sorting by a boolean comparison (Python sorted), as insertion sort. -/

def sortBy {α : Type} (le : α → α → Bool) (l : List α) : List α :=
  l.foldr (insertSorted le) []

/-- The kind strings used in the serialized form. -/

def kindStr : ClassKind → String
  | .ns => "ns"
  | .type => "type"
  | .fn => "fn"
  | .eager => "eager"

/-- Serialization of one node: children sorted by name, eager names sorted. -/

def serializeNode (nd : SumNode) : JNode :=
  ⟨kindStr nd.kind,
    sortBy (fun a b => decide (a.1 ≤ b.1)) nd.children,
    sortBy (fun a b => decide (a ≤ b)) nd.eager⟩

/-- The serialized summary document: root id and the node table keyed by the
decimal string of each node id. -/

structure Summary : Type where
  root : Nat
  nodes : List (String × JNode)
deriving DecidableEq, Repr

/-- build_summary from cli.py: schedule the root, run the worklist loop, and
serialize the node arena. The some case is the real result; none stands for
exhausting the fuel bound, shown impossible. -/

def build_summary (g : ObjGraph) (include_private : Bool) (root_obj : Nat) :
    Except PyErr (Option Summary) := do
  let r ← schedule g initBState root_obj
  let stF? ← buildLoop g include_private (g.n + 1) r.2
  match stF? with
  | none => .ok none
  | some stF =>
    .ok (some ⟨r.1, stF.nodes.map (fun p => (toString p.1, serializeNode p.2))⟩)

/-! ## The traversal policy of build_summary, stated declaratively -/

/-- A name of the member list es that the member loop records as eager: a
string key, public under the privacy setting, whose value classifies eager or
whose classification raises. -/

def esEager (g : ObjGraph) (incl : Bool) (es : List (Option String × Nat))
    (name : String) : Prop :=
  ∃ v, (some name, v) ∈ es ∧ is_public_name name incl = true ∧
    (classifyRes g v = none ∨ classifyRes g v = some ClassKind.eager)

/-- A name of the member list es that the member loop records as a child: a
string key, public, whose value classifies to a non-eager kind. -/

def esChild (g : ObjGraph) (incl : Bool) (es : List (Option String × Nat))
    (name : String) : Prop :=
  ∃ v, (some name, v) ∈ es ∧ is_public_name name incl = true ∧
    ∃ k, classifyRes g v = some k ∧ k ≠ ClassKind.eager

/-- The traversal edge relation: object t is a direct member of object o
under a string public name and classifies to a non-eager kind, so the
traversal follows it. -/

def qualEdge (g : ObjGraph) (incl : Bool) (o t : Nat) : Prop :=
  ∃ name, (some name, t) ∈ safe_iter_members g o ∧
    is_public_name name incl = true ∧
    ∃ k, classifyRes g t = some k ∧ k ≠ ClassKind.eager

/-- Reachability from the root under the traversal policy of build_summary:
the reflexive-transitive closure of the traversal edge relation. -/

def ReachTrav (g : ObjGraph) (incl : Bool) (r o : Nat) : Prop :=
  Relation.ReflTransGen (qualEdge g incl) r o

/-- Well-formedness of the arena: member targets stay inside the arena and
the string keys of each object dict are distinct (Python dict keys are
unique). -/

def WFGraph (g : ObjGraph) : Prop :=
  ∀ o, o < g.n →
    (∀ e ∈ g.dictItems o, e.2 < g.n) ∧
    ((g.dictItems o).filterMap Prod.fst).Nodup

/-- The CPython fact needed for C10: the dict slot of a class object is a
mappingproxy, never a plain dict, so safe_iter_members yields nothing on any
object whose value is class-like. -/

def classDictsAreMappingProxies (g : ObjGraph) : Prop :=
  ∀ o, o < g.n → (g.val o).isClass = true → g.dictIsPlain o = false

/-! ## Invariant of the worklist loop -/

/-- The core loop invariant of build_summary, tying the four state maps
together: distinct keys, the objid and nid maps mutually inverse, the node
arena keyed exactly by the allocated ids, every scheduled object inside the
arena, classified non-eager, reachable from the root, nodes of unexpanded
ids still empty, and expanded ids carrying exactly the members the member
loop computes. -/

structure InvCore (g : ObjGraph) (incl : Bool) (r : Nat) (st : BState) :
    Prop where
  obj_nodup : (st.objid_to_nodeid.map Prod.fst).Nodup
  nid_nodup : (st.nid_to_obj.map Prod.fst).Nodup
  nodes_nodup : (st.nodes.map Prod.fst).Nodup
  sync : ∀ o nid, (o, nid) ∈ st.objid_to_nodeid ↔ (nid, o) ∈ st.nid_to_obj
  len_nodes : st.nodes.length = st.next_id
  len_sched : st.objid_to_nodeid.length = st.next_id
  nid_lt : ∀ p ∈ st.objid_to_nodeid, p.2 < st.next_id
  nodes_dom : ∀ nid : Nat,
    (∃ nd, (nid, nd) ∈ st.nodes) ↔ (∃ o, (o, nid) ∈ st.objid_to_nodeid)
  obj_lt : ∀ p ∈ st.objid_to_nodeid, p.1 < g.n
  obj_kind : ∀ o nid, (o, nid) ∈ st.objid_to_nodeid →
    ∃ k, classifyRes g o = some k ∧ k ≠ ClassKind.eager ∧
      ∀ nd, (nid, nd) ∈ st.nodes → nd.kind = k
  reach : ∀ p ∈ st.objid_to_nodeid, ReachTrav g incl r p.1
  work_sched : ∀ p ∈ st.to_expand,
    (p.1, p.2) ∈ st.objid_to_nodeid ∧ p.2 ∉ st.expanded
  work_nodup : (st.to_expand.map Prod.snd).Nodup
  expanded_sched : ∀ nid ∈ st.expanded, ∃ o, (o, nid) ∈ st.objid_to_nodeid
  pending_empty : ∀ o nid, (o, nid) ∈ st.objid_to_nodeid →
    nid ∉ st.expanded → ∀ nd, (nid, nd) ∈ st.nodes →
      nd.children = [] ∧ nd.eager = []
  done : ∀ nid ∈ st.expanded, ∀ o, (o, nid) ∈ st.objid_to_nodeid →
    ∀ nd, (nid, nd) ∈ st.nodes →
      (∀ name, name ∈ nd.eager ↔ esEager g incl (safe_iter_members g o) name) ∧
      (∀ name, (lookupA nd.children name).isSome ↔
        esChild g incl (safe_iter_members g o) name) ∧
      (∀ t, qualEdge g incl o t → ∃ nid2, (t, nid2) ∈ st.objid_to_nodeid)

/-- Every scheduled pair is expanded or still on the worklist, except the
pairs listed in ex (the pair popped but not yet marked expanded). -/

def pendingExcept (ex : List (Nat × Nat)) (st : BState) : Prop :=
  ∀ o nid, (o, nid) ∈ st.objid_to_nodeid →
    (o, nid) ∈ ex ∨ nid ∈ st.expanded ∨ (o, nid) ∈ st.to_expand

/-- The loop measure: worklist length plus the number of identities not yet
scheduled. -/

def muB (g : ObjGraph) (st : BState) : Nat :=
  st.to_expand.length + (g.n - st.objid_to_nodeid.length)

/-- The state produced by schedule for an object identity never seen. -/

def schedNewState (st : BState) (o : Nat) (k : ClassKind) : BState :=
  ⟨(o, st.next_id) :: st.objid_to_nodeid,
    (st.next_id, ⟨k, [], []⟩) :: st.nodes,
    st.expanded,
    (st.next_id, o) :: st.nid_to_obj,
    st.next_id + 1,
    (o, st.next_id) :: st.to_expand⟩

instance wfGraphDecidable (g : ObjGraph) : Decidable (WFGraph g) := by
  unfold WFGraph
  exact inferInstance

instance classDictsDecidable (g : ObjGraph) :
    Decidable (classDictsAreMappingProxies g) := by
  unfold classDictsAreMappingProxies
  exact inferInstance

def PMOut (g : ObjGraph) (incl : Bool) (r : Nat) (ex : List (Nat × Nat))
    (es : List (Option String × Nat)) (st : BState) (node : SumNode)
    (st' : BState) (node' : SumNode) : Prop :=
  InvCore g incl r st' ∧ pendingExcept ex st' ∧
  st'.expanded = st.expanded ∧
  (∀ p ∈ st.objid_to_nodeid, p ∈ st'.objid_to_nodeid) ∧
  (∀ p ∈ st'.to_expand, p ∈ st.to_expand ∨ st.next_id ≤ p.2) ∧
  st.next_id ≤ st'.next_id ∧
  muB g st' = muB g st ∧
  node'.kind = node.kind ∧
  (∀ name, name ∈ node'.eager ↔ (name ∈ node.eager ∨ esEager g incl es name)) ∧
  (∀ name, (lookupA node'.children name).isSome ↔
    ((lookupA node.children name).isSome ∨ esChild g incl es name)) ∧
  (∀ name v, (some name, v) ∈ es → is_public_name name incl = true →
    ∀ k2, classifyRes g v = some k2 → k2 ≠ ClassKind.eager →
      (lookupA st'.objid_to_nodeid v).isSome)

def g0 : ObjGraph where
  n := 4
  val := fun o =>
    if o = 0 then ⟨true, false, none, false, false, false, false⟩
    else if o = 1 then ⟨false, false, none, true, false, false, false⟩
    else if o = 2 then ⟨false, true, some "mypkg", false, false, false, false⟩
    else ⟨false, false, none, false, false, false, false⟩
  classifyFails := fun _ => false
  dictIsPlain := fun o => decide (o = 0)
  dictItems := fun o =>
    if o = 0 then [(some "f", 1), (some "T", 2), (some "c", 3), (some "self", 0)]
    else []

/-- C4: for every well-formed finite object graph, including graphs with
direct or indirect cycles, the iterative worklist traversal of build_summary
terminates (the explicit fuel bound n+1 is never exhausted) and the number of
nodes of the resulting summary equals the number of distinct object
identities reachable from the root under the traversal policy. -/

theorem lookupA_updateA_self {α β : Type} [DecidableEq α]
    (l : List (α × β)) (k : α) (v : β) : lookupA (updateA l k v) k = some v := by
  induction l with
  | nil => simp [updateA, lookupA]
  | cons p rest ih =>
    obtain ⟨k0, v0⟩ := p
    by_cases h : k = k0
    · simp [updateA, h, lookupA]
    · simp [updateA, h, lookupA, ih]

theorem lookupA_updateA_ne {α β : Type} [DecidableEq α]
    (l : List (α × β)) (k k' : α) (v : β) (h : k' ≠ k) :
    lookupA (updateA l k v) k' = lookupA l k' := by
  induction l with
  | nil => simp [updateA, lookupA, h]
  | cons p rest ih =>
    obtain ⟨k0, v0⟩ := p
    by_cases hk : k = k0
    · subst hk
      simp [updateA, lookupA, h]
    · by_cases hk' : k' = k0
      · simp [updateA, hk, lookupA, hk']
      · simp [updateA, hk, lookupA, hk', ih]

theorem lookupA_isSome_updateA {α β : Type} [DecidableEq α]
    (l : List (α × β)) (k k' : α) (v : β)
    (h : (lookupA l k' ).isSome) : (lookupA (updateA l k v) k' ).isSome := by
  by_cases hk : k' = k
  · subst hk; simp [lookupA_updateA_self]
  · rwa [lookupA_updateA_ne l k k' v hk]

/-! ## Python exceptions -/

/-- The Python exceptions that occur in the embedded code. ModuleNotFoundError
is the distinguished module-not-found condition; the shim error constructed by
_missing_dep_error is a ModuleNotFoundError carrying an install hint message.
The constructor other stands for an arbitrary further exception value. -/

theorem classify_value_matches_spec (v : PyValue) :
    kindToSpec (classify_value v) = classify_spec v := by
  obtain ⟨m, c, ma, f, b, md, cal⟩ := v
  cases m <;> cases c <;> cases f <;> cases b <;> cases md <;> cases cal <;>
    by_cases hb : ma = some "builtins" <;>
      simp [classify_value, classify_spec, inFoundationalTypeSet, kindToSpec, hb]

/-! ## Shim runtime (shim_tooling.py)

The interchange node table keys nodes by the decimal string of the node id,
exactly as the code does (sid = str(node_id)). Proxy objects manufactured by
the runtime carry an allocation number ref modelling Python object identity:
two proxies are the identical object precisely when their refs agree, and
every construction uses a fresh ref. -/

/-- One serialized node of the interchange format: kind is one of the strings
ns, type, fn; children maps member names to integer node ids; eager lists the
opaque member names. -/

theorem rtGet_memo (tbl : List (String × JNode)) (st : RtState) (n : Nat)
    (o : ShimObj) (st2 : RtState) (h : rtGet tbl st n = .ok (o, st2)) :
    lookupA st2.memo (toString n) = some o := by
  unfold rtGet at h
  cases hm : lookupA st.memo (toString n) with
  | some o0 =>
    simp [hm] at h
    obtain ⟨ho, hst⟩ := h
    subst ho; subst hst; exact hm
  | none =>
    simp [hm] at h
    cases ht : lookupA tbl (toString n) with
    | none => simp [ht] at h
    | some nd =>
      simp [ht] at h
      by_cases hfn : nd.kind = "fn"
      · simp [hfn] at h
        obtain ⟨ho, hst⟩ := h
        subst ho; subst hst; simp [lookupA]
      · by_cases hty : nd.kind = "type"
        · simp [hfn, hty] at h
          obtain ⟨ho, hst⟩ := h
          subst ho; subst hst; simp [lookupA]
        · by_cases hns : nd.kind = "ns"
          · simp [hfn, hty, hns] at h
            obtain ⟨ho, hst⟩ := h
            subst ho; subst hst; simp [lookupA]
          · simp [hfn, hty, hns] at h

/-- A memo hit returns the stored object with the state unchanged. -/

theorem rtGet_of_memo (tbl : List (String × JNode)) (st : RtState) (n : Nat)
    (o : ShimObj) (h : lookupA st.memo (toString n) = some o) :
    rtGet tbl st n = .ok (o, st) := by
  unfold rtGet
  simp [h]

/-- C3: resolving the same node id twice through one shim runtime instance
returns the identical proxy object and leaves the memo state unchanged on the
second call; in particular, for a namespace root whose child self points back
to the root node id, attribute access self on the resolved root returns the
very proxy object the root resolved to. -/

theorem shim_runtime_memoized :
    (∀ (tbl : List (String × JNode)) (st : RtState) (n : Nat)
        (o : ShimObj) (st2 : RtState),
      rtGet tbl st n = .ok (o, st2) → rtGet tbl st2 n = .ok (o, st2)) ∧
    (∀ (tbl : List (String × JNode)) (modname : String) (st : RtState)
        (node : JNode) (n : Nat) (o : ShimObj) (st2 : RtState),
      lookupA tbl (toString n) = some node →
      "self" ∉ node.eager →
      lookupA node.children "self" = some n →
      rtGet tbl st n = .ok (o, st2) →
      shimNsGetattr tbl modname st2 (toString n) "self" = .ok (o, st2)) := by
  constructor
  · intro tbl st n o st2 h
    exact rtGet_of_memo tbl st2 n o (rtGet_memo tbl st n o st2 h)
  · intro tbl modname st node n o st2 htbl heager hchild hget
    unfold shimNsGetattr
    simp [htbl, heager, hchild]
    exact rtGet_of_memo tbl st2 n o (rtGet_memo tbl st n o st2 hget)

/-- Closed witness for shim_runtime_memoized: a one-node table whose root is
a namespace with itself as child self. -/

theorem shim_runtime_memoized_witness :
    rtGet [("0", ⟨"ns", [("self", 0)], []⟩)] rtInit 0 =
      .ok (ShimObj.nsObj 0 "0", ⟨[("0", ShimObj.nsObj 0 "0")], 1⟩) ∧
    rtGet [("0", ⟨"ns", [("self", 0)], []⟩)]
        ⟨[("0", ShimObj.nsObj 0 "0")], 1⟩ 0 =
      .ok (ShimObj.nsObj 0 "0", ⟨[("0", ShimObj.nsObj 0 "0")], 1⟩) ∧
    shimNsGetattr [("0", ⟨"ns", [("self", 0)], []⟩)] "torch"
        ⟨[("0", ShimObj.nsObj 0 "0")], 1⟩ "0" "self" =
      .ok (ShimObj.nsObj 0 "0", ⟨[("0", ShimObj.nsObj 0 "0")], 1⟩) := by
  refine ⟨by rfl, ?_, ?_⟩
  · exact shim_runtime_memoized.1 [("0", ⟨"ns", [("self", 0)], []⟩)] rtInit 0
      (ShimObj.nsObj 0 "0") ⟨[("0", ShimObj.nsObj 0 "0")], 1⟩ (by rfl)
  · exact shim_runtime_memoized.2 [("0", ⟨"ns", [("self", 0)], []⟩)] "torch"
      rtInit ⟨"ns", [("self", 0)], []⟩ 0
      (ShimObj.nsObj 0 "0") ⟨[("0", ShimObj.nsObj 0 "0")], 1⟩
      (by rfl) (by decide) (by rfl) (by rfl)

/-- The errors rtGet itself can raise are KeyError (node id absent from the
table) and RuntimeError (unknown node kind); it never raises the
missing-dependency ModuleNotFoundError nor AttributeError. -/

theorem rtGet_error_shape (tbl : List (String × JNode)) (st : RtState)
    (n : Nat) (e : PyErr) (h : rtGet tbl st n = .error e) :
    (∃ k, e = .keyError k) ∨ (∃ m, e = .runtimeError m) := by
  unfold rtGet at h
  cases hm : lookupA st.memo (toString n) with
  | some o0 => simp [hm] at h
  | none =>
    simp [hm] at h
    cases ht : lookupA tbl (toString n) with
    | none =>
      simp [ht] at h
      exact Or.inl ⟨toString n, h.symm⟩
    | some nd =>
      simp [ht] at h
      by_cases hfn : nd.kind = "fn"
      · simp [hfn] at h
      · by_cases hty : nd.kind = "type"
        · simp [hfn, hty] at h
        · by_cases hns : nd.kind = "ns"
          · simp [hfn, hty, hns] at h
          · simp [hfn, hty, hns] at h
            exact Or.inr ⟨_, h.symm⟩

/-- C2: the attribute-lookup operation of a Namespace proxy, for any node of
the table and any requested name: a name listed in eager raises the
missing-dependency error; otherwise a name present among the children keys
returns the resolution of the child node id and raises neither the
missing-dependency error nor AttributeError; otherwise the lookup raises
AttributeError naming the attribute. -/

theorem shim_namespace_getattr_cases (tbl : List (String × JNode))
    (modname : String) (st : RtState) (sid : String) (node : JNode)
    (name : String) (htbl : lookupA tbl sid = some node) :
    (name ∈ node.eager →
      shimNsGetattr tbl modname st sid name = .error (missing_dep_error modname)) ∧
    (name ∉ node.eager → ∀ cid, lookupA node.children name = some cid →
      shimNsGetattr tbl modname st sid name = rtGet tbl st cid ∧
      (∀ m, shimNsGetattr tbl modname st sid name ≠ .error (.moduleNotFound m)) ∧
      (∀ s, shimNsGetattr tbl modname st sid name ≠ .error (.attributeError s))) ∧
    (name ∉ node.eager → lookupA node.children name = none →
      shimNsGetattr tbl modname st sid name = .error (.attributeError name)) := by
  refine ⟨?_, ?_, ?_⟩
  · intro he
    unfold shimNsGetattr
    simp [htbl, he]
  · intro he cid hc
    have hres : shimNsGetattr tbl modname st sid name = rtGet tbl st cid := by
      unfold shimNsGetattr
      simp [htbl, he, hc]
    refine ⟨hres, ?_, ?_⟩
    · intro m hcontra
      rw [hres] at hcontra
      rcases rtGet_error_shape tbl st cid _ hcontra with ⟨k, hk⟩ | ⟨m2, hm2⟩ <;>
        simp_all
    · intro s hcontra
      rw [hres] at hcontra
      rcases rtGet_error_shape tbl st cid _ hcontra with ⟨k, hk⟩ | ⟨m2, hm2⟩ <;>
        simp_all
  · intro he hc
    unfold shimNsGetattr
    simp [htbl, he, hc]

/-- Closed witness for shim_namespace_getattr_cases, on a namespace node with
one eager name E, one child c and the unknown name zzz. -/

theorem shim_namespace_getattr_cases_witness :
    shimNsGetattr [("0", ⟨"ns", [("c", 1)], ["E"]⟩), ("1", ⟨"fn", [], []⟩)]
        "torch" rtInit "0" "E" = .error (missing_dep_error "torch") ∧
    shimNsGetattr [("0", ⟨"ns", [("c", 1)], ["E"]⟩), ("1", ⟨"fn", [], []⟩)]
        "torch" rtInit "0" "c" =
      rtGet [("0", ⟨"ns", [("c", 1)], ["E"]⟩), ("1", ⟨"fn", [], []⟩)] rtInit 1 ∧
    shimNsGetattr [("0", ⟨"ns", [("c", 1)], ["E"]⟩), ("1", ⟨"fn", [], []⟩)]
        "torch" rtInit "0" "zzz" = .error (.attributeError "zzz") := by
  refine ⟨?_, ?_, ?_⟩
  · exact (shim_namespace_getattr_cases _ "torch" rtInit "0"
      ⟨"ns", [("c", 1)], ["E"]⟩ "E" (by rfl)).1 (by decide)
  · exact ((shim_namespace_getattr_cases _ "torch" rtInit "0"
      ⟨"ns", [("c", 1)], ["E"]⟩ "c" (by rfl)).2.1 (by decide) 1 (by rfl)).1
  · exact (shim_namespace_getattr_cases _ "torch" rtInit "0"
      ⟨"ns", [("c", 1)], ["E"]⟩ "zzz" (by rfl)).2.2 (by decide) (by rfl)

/-! ## Placeholder types (_MissingTypeMeta and the type branch of rtGet)

The type branch of _ShimRuntime.get manufactures T with metaclass
_MissingTypeMeta and then stores three entries in the class dict of T itself:
the string attribute dunder-shim-modname, the namespace proxy under _shim_ns,
and a forwarding function under the dunder-getattr key. CPython resolves an
attribute access T.name on the class object T through the metaclass protocol:
ordinary lookup searches the mro of T and the metaclass, and on failure the
dunder-getattr hook of the METAclass (type(T), here _MissingTypeMeta) would
run; a dunder-getattr entry stored in the dict of T itself is only consulted
for attribute access on instances of T. _MissingTypeMeta defines no such
hook, so a miss at class level raises AttributeError. -/

/-- Names that setattr placed into the class dict of the placeholder type T
(rtGet, type branch). -/

theorem placeholder_type_attr_bug :
    missingTypeMetaCall (some "torch") "Missing_torch_0" =
      .error (missing_dep_error "torch") ∧
    placeholderTypeGetattr "SOME_CONSTANT" =
      .error (.attributeError "SOME_CONSTANT") ∧
    type_getattr_hook c5Table "torch" rtInit "0" "SOME_CONSTANT" =
      .ok (ShimObj.fnObj 0, ⟨[("1", ShimObj.fnObj 0)], 1⟩) := by
  refine ⟨rfl, by rfl, by rfl⟩

/-! ## Resolution facade (LazyModuleProxy in shim_tooling.py)

The facade holds a module name and the summary value it was constructed
with. The generator _write_imports_init in cli.py emits modules that call
LazyModuleProxy(name, base) where base is the directory Path holding the
persisted JSON files, so the summary slot of a proxy is either an in-memory
summary document or such a Path; the constructor of LazyModuleProxy stores
whatever it is given. Subscripting a Path object raises TypeError in Python
(pathlib paths have no bracket-get operation). The real import attempt is an
external effect; its outcome is passed in explicitly. -/

/-- The value stored in the summary slot of a LazyModuleProxy: an in-memory
summary document (root id plus node table), or the directory Path that
_write_imports_init passes. -/

theorem lazyload_propagation (p : LazyProxy) (hload : p.loaded = false) :
    (∀ e : PyErr, (∀ m, e ≠ .moduleNotFound m) →
      lazyLoad p (.raises e) = .error e) ∧
    (∀ msg root nodes, p.summary = .doc root nodes →
      ∀ o st2, rtGet nodes rtInit root = .ok (o, st2) →
        lazyLoad p (.raises (.moduleNotFound msg)) =
          .ok (some (.shim o),
            { p with obj := some (.shim o), loaded := true })) := by
  constructor
  · intro e he
    unfold lazyLoad
    cases e with
    | moduleNotFound m => exact absurd rfl (he m)
    | attributeError nm => simp [hload]
    | typeError m => simp [hload]
    | keyError k => simp [hload]
    | runtimeError m => simp [hload]
    | assertionError m => simp [hload]
    | other t => simp [hload]
  · intro msg root nodes hsum o st2 hget
    unfold lazyLoad
    simp [hload, hsum, summaryGetNodes, summaryGetRoot, hget, bind, Except.bind]

/-- Closed witness for lazyload_propagation: a RuntimeError from the real
module load propagates unchanged, and a module-not-found outcome builds the
shim root of a one-node summary. -/

theorem lazyload_propagation_witness :
    lazyLoad ⟨"torch", .doc 0 [("0", ⟨"ns", [], []⟩)], false, none⟩
        (.raises (.runtimeError "broken install")) =
      .error (.runtimeError "broken install") ∧
    lazyLoad ⟨"torch", .doc 0 [("0", ⟨"ns", [], []⟩)], false, none⟩
        (.raises (.moduleNotFound "No module named torch")) =
      .ok (some (.shim (ShimObj.nsObj 0 "0")),
        ⟨"torch", .doc 0 [("0", ⟨"ns", [], []⟩)], true,
          some (.shim (ShimObj.nsObj 0 "0"))⟩) := by
  constructor
  · exact (lazyload_propagation
      ⟨"torch", .doc 0 [("0", ⟨"ns", [], []⟩)], false, none⟩ rfl).1
      (.runtimeError "broken install") (by intro m h; cases h)
  · exact (lazyload_propagation
      ⟨"torch", .doc 0 [("0", ⟨"ns", [], []⟩)], false, none⟩ rfl).2
      "No module named torch" 0 [("0", ⟨"ns", [], []⟩)] rfl
      (ShimObj.nsObj 0 "0") ⟨[("0", ShimObj.nsObj 0 "0")], 1⟩ (by rfl)

/-- C9, settled against the code: a facade constructed the way the
generated bundle constructs it, with the directory Path in the summary slot,
does not load the persisted graph when the real module is absent; the first
load attempt raises TypeError because the Path is subscripted directly, so no
shim root is ever produced from the persisted node table. -/

theorem lazyload_dirpath_bug :
    lazyLoad ⟨"torch", .dirPath "imports", false, none⟩
        (.raises (.moduleNotFound "No module named torch")) =
      .error (.typeError "PosixPath object is not subscriptable") := by
  rfl

/-! ## Explicit-submodule path trie

Modelled from the spec: the sources ship only the producer side of the
compatibility layer (cli.py main computes the explicit child module paths and
persists them in the payload under explicit_child_modules), while the
consumer described in the specification, the Path Trie with its Intermediate
Namespace objects, is code of the repository that is not under the provided
sources. The definitions below follow the specification wording: a flat set
of dotted paths is compiled into a trie keyed by path segment, each trie node
optionally tagged with the exact concrete path it represents; before real
resolution an attribute access matching a trie segment returns an
Intermediate Namespace carrying the accumulated path; when a further access
reaches a tagged node, exactly that concrete sub-hierarchy is force-loaded
before the accumulated chain is resolved; a deeper untagged match descends;
no match falls back to plain chain resolution. -/

/-- Modelled from the spec: a Path Trie node, optionally tagged with the
concrete loadable path it represents, with children keyed by path segment. -/

theorem tagAt_nil (tag : Option (List String)) (kids : List (String × PathTrie)) :
    tagAt (.node tag kids) [] = tag := rfl

theorem tagAt_cons (tag : Option (List String)) (kids : List (String × PathTrie))
    (seg : String) (rest : List String) :
    tagAt (.node tag kids) (seg :: rest) =
      (match lookupA kids seg with
        | some c => tagAt c rest
        | none => none) := by
  cases hk : lookupA kids seg with
  | some c =>
    have hstep : trieDescend (.node tag kids) (seg :: rest) = trieDescend c rest := by
      simp [trieDescend, hk]
    simp [tagAt, hstep, hk]
  | none =>
    have hstep : trieDescend (.node tag kids) (seg :: rest) = none := by
      simp [trieDescend, hk]
    simp [tagAt, hstep, hk]

theorem tagAt_empty_trie (q : List String) :
    tagAt (.node none []) q = none := by
  cases q with
  | nil => rfl
  | cons s rest => simp [tagAt_cons, lookupA]

/-- The trie node at the end of an inserted path is tagged with exactly the
full path handed to the insertion. -/

theorem tagAt_trieInsert_self :
    ∀ (rest : List String) (t : PathTrie) (full : List String),
      tagAt (trieInsert full t rest) rest = some full := by
  intro rest
  induction rest with
  | nil =>
    intro t full
    obtain ⟨tag, kids⟩ := t
    simp [trieInsert, tagAt_nil]
  | cons seg rest ih =>
    intro t full
    obtain ⟨tag, kids⟩ := t
    simp only [trieInsert, tagAt_cons, lookupA_updateA_self]
    exact ih _ full

/-- Inserting a path leaves the tag at every other position unchanged. -/

theorem tagAt_trieInsert_other :
    ∀ (rest q : List String) (t : PathTrie) (full : List String), q ≠ rest →
      tagAt (trieInsert full t rest) q = tagAt t q := by
  intro rest
  induction rest with
  | nil =>
    intro q t full hq
    obtain ⟨tag, kids⟩ := t
    cases q with
    | nil => exact absurd rfl hq
    | cons s q2 => simp [trieInsert, tagAt_cons]
  | cons seg rest ih =>
    intro q t full hq
    obtain ⟨tag, kids⟩ := t
    cases q with
    | nil => simp [trieInsert, tagAt_nil]
    | cons s q2 =>
      by_cases hs : s = seg
      · subst hs
        have hq2 : q2 ≠ rest := by
          intro hcontra
          exact hq (by rw [hcontra])
        simp only [trieInsert, tagAt_cons, lookupA_updateA_self]
        cases hk : lookupA kids s with
        | some c => simp [ih q2 c full hq2, hk]
        | none =>
          rw [ih q2 _ full hq2]
          simp [hk, tagAt_empty_trie]
      · simp only [trieInsert, tagAt_cons]
        rw [lookupA_updateA_ne kids seg s _ hs]

/-- Every path of the flat set is represented in the compiled trie by a node
tagged with exactly that concrete path. -/

theorem tagAt_trieOfPaths (paths : List (List String)) (q : List String)
    (hq : q ∈ paths) : tagAt (trieOfPaths paths) q = some q := by
  unfold trieOfPaths
  suffices h : ∀ (ps : List (List String)) (t : PathTrie),
      (q ∈ ps ∨ tagAt t q = some q) →
      tagAt (ps.foldl (fun t p => trieInsert p t p) t) q = some q by
    exact h paths _ (Or.inl hq)
  intro ps
  induction ps with
  | nil =>
    intro t h
    rcases h with h | h
    · cases h
    · exact h
  | cons p ps ih =>
    intro t h
    simp only [List.foldl_cons]
    apply ih
    by_cases hqp : q = p
    · subst hqp
      exact Or.inr (tagAt_trieInsert_self q t q)
    · rcases h with h | h
      · rcases List.mem_cons.mp h with h1 | h1
        · exact absurd h1 hqp
        · exact Or.inl h1
      · exact Or.inr (by rw [tagAt_trieInsert_other p q t p hqp]; exact h)

/-- Inserting a path whose first segment is s gives the root a child for s. -/

theorem trieRootKid_insert_head (full : List String) (t : PathTrie)
    (s : String) (rest : List String) :
    trieRootKid (trieInsert full t (s :: rest)) s = true := by
  obtain ⟨tag, kids⟩ := t
  simp [trieInsert, trieRootKid, lookupA_updateA_self]

/-- Insertion never removes a root child. -/

theorem trieRootKid_insert_mono (full : List String) (t : PathTrie)
    (s : String) (rest : List String) (h : trieRootKid t s = true) :
    trieRootKid (trieInsert full t rest) s = true := by
  obtain ⟨tag, kids⟩ := t
  cases rest with
  | nil => exact h
  | cons seg rest2 =>
    simp only [trieRootKid] at h
    simp [trieInsert, trieRootKid, lookupA_isSome_updateA _ _ _ _ h]

/-- Every first segment of a path of the flat set is a root child of the
compiled trie. -/

theorem trieRootKid_trieOfPaths (paths : List (List String)) (s : String)
    (h : ∃ rest, (s :: rest) ∈ paths) :
    trieRootKid (trieOfPaths paths) s = true := by
  unfold trieOfPaths
  suffices hs : ∀ (ps : List (List String)) (t : PathTrie),
      ((∃ rest, (s :: rest) ∈ ps) ∨ trieRootKid t s = true) →
      trieRootKid (ps.foldl (fun t p => trieInsert p t p) t) s = true by
    exact hs paths _ (Or.inl h)
  intro ps
  induction ps with
  | nil =>
    intro t hh
    rcases hh with ⟨rest, hmem⟩ | hh
    · cases hmem
    · exact hh
  | cons p ps ih =>
    intro t hh
    simp only [List.foldl_cons]
    apply ih
    rcases hh with ⟨rest, hmem⟩ | hh
    · rcases List.mem_cons.mp hmem with h1 | h1
      · exact Or.inr (by rw [← h1]; exact trieRootKid_insert_head (s :: rest) t s rest)
      · exact Or.inl ⟨rest, h1⟩
    · exact Or.inr (trieRootKid_insert_mono p t s p hh)

/-- C8 (modelled from the spec): over the trie compiled from the known
explicit-load paths, an attribute access before resolution whose name is the
first segment of a known path returns an Intermediate Namespace carrying the
accumulated one-segment path, and an access on an Intermediate Namespace
whose accumulated chain completes a known path reaches a trie node tagged
with exactly that concrete path, so exactly that sub-hierarchy is
force-loaded before the full accumulated chain is resolved. -/

theorem explicit_trie_access (paths : List (List String)) :
    (∀ name : String, (∃ rest, (name :: rest) ∈ paths) →
      facadePreAccess (trieOfPaths paths) name = .intermediate [name]) ∧
    (∀ (acc : List String) (name : String), (acc ++ [name]) ∈ paths →
      interAccess (trieOfPaths paths) acc name =
        .forceLoad (acc ++ [name]) (acc ++ [name])) := by
  constructor
  · intro name hname
    unfold facadePreAccess
    simp [trieRootKid_trieOfPaths paths name hname]
  · intro acc name hmem
    have htag : tagAt (trieOfPaths paths) (acc ++ [name]) = some (acc ++ [name]) :=
      tagAt_trieOfPaths paths _ hmem
    unfold interAccess
    unfold tagAt at htag
    cases hd : trieDescend (trieOfPaths paths) (acc ++ [name]) with
    | none => rw [hd] at htag; cases htag
    | some tnode =>
      obtain ⟨tg, kids⟩ := tnode
      rw [hd] at htag
      simp at htag
      simp [htag]

/-- Closed witness for explicit_trie_access, over the single explicit path
a.b: the first access on a is an Intermediate Namespace, and the access b on
it force-loads exactly a.b before resolving the chain a.b. -/

theorem explicit_trie_access_witness :
    facadePreAccess (trieOfPaths [["a", "b"]]) "a" =
      .intermediate ["a"] ∧
    interAccess (trieOfPaths [["a", "b"]]) ["a"] "b" =
      .forceLoad ["a", "b"] ["a", "b"] := by
  constructor
  · exact (explicit_trie_access [["a", "b"]]).1 "a" ⟨["b"], by simp⟩
  · exact (explicit_trie_access [["a", "b"]]).2 ["a"] "b" (by simp)

/-! ## Object graphs and the summary builder (build_summary in cli.py)

A live Python object heap is modelled as a finite arena: object identities
are the numbers below n, and per identity the arena records the slots the
builder inspects: the classification-relevant flags, whether the call
classify_value(x) raises, whether the direct dict slot is a plain dict
(getattr(obj, dunder-dict, None) being a plain dict, as opposed to a
mappingproxy or missing), and the items of that dict, with keys that are
either strings or non-string keys. -/

/-- A finite object graph. -/

theorem lookupA_mem {α β : Type} [DecidableEq α] {l : List (α × β)} {k : α}
    {v : β} (h : lookupA l k = some v) : (k, v) ∈ l := by
  induction l with
  | nil => cases h
  | cons p rest ih =>
    obtain ⟨k0, v0⟩ := p
    by_cases hk : k = k0
    · subst hk
      simp [lookupA] at h
      simp [h]
    · simp [lookupA, hk] at h
      exact List.mem_cons_of_mem _ (ih h)

theorem mem_lookupA {α β : Type} [DecidableEq α] {l : List (α × β)} {k : α}
    {v : β} (hnd : (l.map Prod.fst).Nodup) (h : (k, v) ∈ l) :
    lookupA l k = some v := by
  induction l with
  | nil => cases h
  | cons p rest ih =>
    obtain ⟨k0, v0⟩ := p
    rw [List.map_cons, List.nodup_cons] at hnd
    rcases List.mem_cons.mp h with h1 | h1
    · injection h1 with h1a h1b
      subst h1a; subst h1b
      simp [lookupA]
    · have hk : k ≠ k0 := by
        intro hcontra
        apply hnd.1
        rw [← hcontra]
        exact List.mem_map.mpr ⟨(k, v), h1, rfl⟩
      simp [lookupA, hk]
      exact ih hnd.2 h1

theorem lookupA_isSome_iff {α β : Type} [DecidableEq α] (l : List (α × β))
    (k : α) : (lookupA l k).isSome ↔ ∃ v, (k, v) ∈ l := by
  induction l with
  | nil => simp [lookupA]
  | cons p rest ih =>
    obtain ⟨k0, v0⟩ := p
    by_cases hk : k = k0
    · subst hk
      simp [lookupA]
    · simp [lookupA, hk, ih, hk]

theorem lookupA_eq_none_iff {α β : Type} [DecidableEq α] (l : List (α × β))
    (k : α) : lookupA l k = none ↔ ∀ v, (k, v) ∉ l := by
  rw [← Option.not_isSome_iff_eq_none, lookupA_isSome_iff]
  simp

theorem map_fst_updateA {α β : Type} [DecidableEq α] (l : List (α × β))
    (k : α) (v : β) (h : (lookupA l k).isSome) :
    (updateA l k v).map Prod.fst = l.map Prod.fst := by
  induction l with
  | nil => simp [lookupA] at h
  | cons p rest ih =>
    obtain ⟨k0, v0⟩ := p
    by_cases hk : k = k0
    · subst hk
      simp [updateA]
    · simp [lookupA, hk] at h
      simp [updateA, hk, ih h]

theorem length_updateA {α β : Type} [DecidableEq α] (l : List (α × β))
    (k : α) (v : β) (h : (lookupA l k).isSome) :
    (updateA l k v).length = l.length := by
  have := map_fst_updateA l k v h
  have h1 : ((updateA l k v).map Prod.fst).length = (l.map Prod.fst).length := by
    rw [this]
  simpa using h1

theorem mem_updateA_ne {α β : Type} [DecidableEq α] (l : List (α × β))
    (k k' : α) (v v' : β) (hk : k' ≠ k) :
    ((k', v') ∈ updateA l k v) ↔ ((k', v') ∈ l) := by
  induction l with
  | nil => simp [updateA, hk]
  | cons p rest ih =>
    obtain ⟨k0, v0⟩ := p
    by_cases h0 : k = k0
    · subst h0
      simp [updateA]
      constructor
      · intro h
        rcases h with h | h
        · exact absurd h.1 hk
        · exact Or.inr h
      · intro h
        rcases h with h | h
        · exact absurd h.1 hk
        · exact Or.inr h
    · simp [updateA, h0]
      constructor
      · intro h
        rcases h with h | h
        · exact Or.inl h
        · exact Or.inr (ih.mp h)
      · intro h
        rcases h with h | h
        · exact Or.inl h
        · exact Or.inr (ih.mpr h)

theorem exists_mem_updateA {α β : Type} [DecidableEq α] (l : List (α × β))
    (k k2 : α) (v : β) (h : (lookupA l k).isSome) :
    (∃ w, (k2, w) ∈ updateA l k v) ↔ (∃ w, (k2, w) ∈ l) := by
  constructor
  · rintro ⟨w, hw⟩
    by_cases hk : k2 = k
    · subst hk
      rw [← lookupA_isSome_iff]
      exact h
    · exact ⟨w, (mem_updateA_ne l k k2 v w hk).mp hw⟩
  · rintro ⟨w, hw⟩
    by_cases hk : k2 = k
    · subst hk
      exact ⟨v, lookupA_mem (lookupA_updateA_self l k2 v)⟩
    · exact ⟨w, (mem_updateA_ne l k k2 v w hk).mpr hw⟩

theorem mem_addEager (l : List String) (name x : String) :
    x ∈ addEager l name ↔ (x = name ∨ x ∈ l) := by
  unfold addEager
  by_cases h : name ∈ l
  · simp [h]
    intro hx
    subst hx
    exact h
  · simp [h]

/-- A duplicate-free list of numbers all below n has at most n entries. -/

theorem nodup_lt_length_le (l : List Nat) (n : Nat) (hnd : l.Nodup)
    (hlt : ∀ x ∈ l, x < n) : l.length ≤ n := by
  classical
  have hsub : l.toFinset ⊆ Finset.range n := by
    intro x hx
    rw [List.mem_toFinset] at hx
    exact Finset.mem_range.mpr (hlt x hx)
  have hcard := Finset.card_le_card hsub
  rwa [List.toFinset_card_of_nodup hnd, Finset.card_range] at hcard

/-- The scheduled-object map never exceeds the arena size. -/

theorem sched_len_le (g : ObjGraph) (incl : Bool) (r : Nat) (st : BState)
    (hc : InvCore g incl r st) : st.objid_to_nodeid.length ≤ g.n := by
  have h1 : (st.objid_to_nodeid.map Prod.fst).length ≤ g.n := by
    apply nodup_lt_length_le _ _ hc.obj_nodup
    intro x hx
    rcases List.mem_map.mp hx with ⟨p, hp, hpx⟩
    subst hpx
    exact hc.obj_lt p hp
  simpa using h1

theorem nextid_not_expanded (g : ObjGraph) (incl : Bool) (r : Nat)
    (st : BState) (hc : InvCore g incl r st) : st.next_id ∉ st.expanded := by
  intro h
  obtain ⟨o, ho⟩ := hc.expanded_sched st.next_id h
  exact absurd (hc.nid_lt (o, st.next_id) ho) (lt_irrefl _)

theorem nextid_not_in_nid (g : ObjGraph) (incl : Bool) (r : Nat)
    (st : BState) (hc : InvCore g incl r st) :
    lookupA st.nid_to_obj st.next_id = none := by
  rw [lookupA_eq_none_iff]
  intro o h
  have hmem := (hc.sync o st.next_id).mpr h
  exact absurd (hc.nid_lt _ hmem) (lt_irrefl _)

theorem nid_keys_lt (g : ObjGraph) (incl : Bool) (r : Nat) (st : BState)
    (hc : InvCore g incl r st) (nid o : Nat) (h : (nid, o) ∈ st.nid_to_obj) :
    nid < st.next_id :=
  hc.nid_lt (o, nid) ((hc.sync o nid).mpr h)

theorem nodes_keys_lt (g : ObjGraph) (incl : Bool) (r : Nat) (st : BState)
    (hc : InvCore g incl r st) (nid : Nat) (nd : SumNode)
    (h : (nid, nd) ∈ st.nodes) : nid < st.next_id := by
  obtain ⟨o, ho⟩ := (hc.nodes_dom nid).mp ⟨nd, h⟩
  exact hc.nid_lt (o, nid) ho

/-- schedule on an object identity already scheduled: the existing node id is
returned and the state is unchanged. -/

theorem schedule_existing (g : ObjGraph) (incl : Bool) (r : Nat)
    (st : BState) (o nid : Nat) (k : ClassKind) (hc : InvCore g incl r st)
    (hk : classifyRes g o = some k) (hke : k ≠ ClassKind.eager)
    (hmem : (o, nid) ∈ st.objid_to_nodeid) :
    schedule g st o = .ok (nid, st) := by
  have hlk : lookupA st.objid_to_nodeid o = some nid :=
    mem_lookupA hc.obj_nodup hmem
  have hno : lookupA st.nid_to_obj nid = some o :=
    mem_lookupA hc.nid_nodup ((hc.sync o nid).mp hmem)
  unfold schedule get_node_id
  rw [hk]
  cases k with
  | eager => exact absurd rfl hke
  | ns => simp [hlk, hno]
  | type => simp [hlk, hno]
  | fn => simp [hlk, hno]

/-- schedule on a fresh object identity: a new id, an empty node, the inverse
map entry and a worklist push. -/

theorem schedule_new_eq (g : ObjGraph) (st : BState) (o : Nat) (k : ClassKind)
    (hk : classifyRes g o = some k) (hke : k ≠ ClassKind.eager)
    (hnone : lookupA st.objid_to_nodeid o = none)
    (hexp : st.next_id ∉ st.expanded)
    (hnid : lookupA st.nid_to_obj st.next_id = none) :
    schedule g st o = .ok (st.next_id, schedNewState st o k) := by
  unfold schedule get_node_id
  rw [hk]
  cases k with
  | eager => exact absurd rfl hke
  | ns => simp [hnone, hexp, hnid, schedNewState]
  | type => simp [hnone, hexp, hnid, schedNewState]
  | fn => simp [hnone, hexp, hnid, schedNewState]

theorem invCore_schedNew (g : ObjGraph) (incl : Bool) (r : Nat) (st : BState)
    (o : Nat) (k : ClassKind) (hc : InvCore g incl r st)
    (hk : classifyRes g o = some k) (hke : k ≠ ClassKind.eager)
    (hnone : lookupA st.objid_to_nodeid o = none)
    (ho : o < g.n) (hreach : ReachTrav g incl r o) :
    InvCore g incl r (schedNewState st o k) := by
  have hofresh : ∀ nid2, (o, nid2) ∉ st.objid_to_nodeid := by
    intro nid2
    exact (lookupA_eq_none_iff _ _).mp hnone nid2
  refine ⟨?_, ?_, ?_, ?_, ?_, ?_, ?_, ?_, ?_, ?_, ?_, ?_, ?_, ?_, ?_, ?_⟩
  · simp only [schedNewState, List.map_cons, List.nodup_cons]
    refine ⟨?_, hc.obj_nodup⟩
    intro hcontra
    rcases List.mem_map.mp hcontra with ⟨p, hp, hpe⟩
    exact hofresh p.2 (by rw [← hpe]; exact hp)
  · simp only [schedNewState, List.map_cons, List.nodup_cons]
    refine ⟨?_, hc.nid_nodup⟩
    intro hcontra
    rcases List.mem_map.mp hcontra with ⟨p, hp, hpe⟩
    have : p.1 < st.next_id := nid_keys_lt g incl r st hc p.1 p.2 hp
    omega
  · simp only [schedNewState, List.map_cons, List.nodup_cons]
    refine ⟨?_, hc.nodes_nodup⟩
    intro hcontra
    rcases List.mem_map.mp hcontra with ⟨p, hp, hpe⟩
    have : p.1 < st.next_id := nodes_keys_lt g incl r st hc p.1 p.2 hp
    omega
  · intro o2 nid2
    simp only [schedNewState, List.mem_cons]
    constructor
    · intro h
      rcases h with h | h
      · injection h with h1 h2
        subst h1; subst h2
        exact Or.inl rfl
      · exact Or.inr ((hc.sync o2 nid2).mp h)
    · intro h
      rcases h with h | h
      · injection h with h1 h2
        subst h1; subst h2
        exact Or.inl rfl
      · exact Or.inr ((hc.sync o2 nid2).mpr h)
  · simp [schedNewState, hc.len_nodes]
  · simp [schedNewState, hc.len_sched]
  · intro p hp
    simp only [schedNewState, List.mem_cons] at hp
    rcases hp with hp | hp
    · subst hp
      simp [schedNewState]
    · simp only [schedNewState]
      exact Nat.lt_succ_of_lt (hc.nid_lt p hp)
  · intro nid2
    by_cases hn : nid2 = st.next_id
    · subst hn
      constructor
      · intro _
        exact ⟨o, by simp [schedNewState]⟩
      · intro _
        exact ⟨⟨k, [], []⟩, by simp [schedNewState]⟩
    · constructor
      · rintro ⟨nd, hnd⟩
        simp only [schedNewState, List.mem_cons] at hnd
        rcases hnd with hnd | hnd
        · injection hnd with h1 h2
          exact absurd h1 hn
        · obtain ⟨o2, ho2⟩ := (hc.nodes_dom nid2).mp ⟨nd, hnd⟩
          exact ⟨o2, by simp only [schedNewState, List.mem_cons]; exact Or.inr ho2⟩
      · rintro ⟨o2, ho2⟩
        simp only [schedNewState, List.mem_cons] at ho2
        rcases ho2 with ho2 | ho2
        · injection ho2 with h1 h2
          exact absurd h2 hn
        · obtain ⟨nd, hnd⟩ := (hc.nodes_dom nid2).mpr ⟨o2, ho2⟩
          exact ⟨nd, by simp only [schedNewState, List.mem_cons]; exact Or.inr hnd⟩
  · intro p hp
    simp only [schedNewState, List.mem_cons] at hp
    rcases hp with hp | hp
    · subst hp
      exact ho
    · exact hc.obj_lt p hp
  · intro o2 nid2 hmem
    simp only [schedNewState, List.mem_cons] at hmem
    rcases hmem with hmem | hmem
    · injection hmem with h1 h2
      subst h1; subst h2
      refine ⟨k, hk, hke, ?_⟩
      intro nd hnd
      simp only [schedNewState, List.mem_cons] at hnd
      rcases hnd with hnd | hnd
      · injection hnd with h1 h2
        subst h2
        rfl
      · have := nodes_keys_lt g incl r st hc st.next_id nd hnd
        omega
    · obtain ⟨k2, hk2, hk2e, hnd2⟩ := hc.obj_kind o2 nid2 hmem
      refine ⟨k2, hk2, hk2e, ?_⟩
      intro nd hnd
      simp only [schedNewState, List.mem_cons] at hnd
      rcases hnd with hnd | hnd
      · injection hnd with h1 h2
        have := hc.nid_lt (o2, nid2) hmem
        omega
      · exact hnd2 nd hnd
  · intro p hp
    simp only [schedNewState, List.mem_cons] at hp
    rcases hp with hp | hp
    · subst hp
      exact hreach
    · exact hc.reach p hp
  · intro p hp
    simp only [schedNewState, List.mem_cons] at hp
    rcases hp with hp | hp
    · subst hp
      refine ⟨by simp [schedNewState], ?_⟩
      simp only [schedNewState]
      exact nextid_not_expanded g incl r st hc
    · obtain ⟨h1, h2⟩ := hc.work_sched p hp
      exact ⟨by simp only [schedNewState, List.mem_cons]; exact Or.inr h1, h2⟩
  · simp only [schedNewState, List.map_cons, List.nodup_cons]
    refine ⟨?_, hc.work_nodup⟩
    intro hcontra
    rcases List.mem_map.mp hcontra with ⟨p, hp, hpe⟩
    have := hc.nid_lt (p.1, p.2) (hc.work_sched p hp).1
    simp only at this
    omega
  · intro nid2 h2
    simp only [schedNewState] at h2
    obtain ⟨o2, ho2⟩ := hc.expanded_sched nid2 h2
    exact ⟨o2, by simp only [schedNewState, List.mem_cons]; exact Or.inr ho2⟩
  · intro o2 nid2 hmem hnexp nd hnd
    simp only [schedNewState, List.mem_cons] at hmem hnd hnexp
    rcases hnd with hnd | hnd
    · injection hnd with h1 h2
      subst h2
      exact ⟨rfl, rfl⟩
    · rcases hmem with hmem | hmem
      · injection hmem with h1 h2
        have := nodes_keys_lt g incl r st hc nid2 nd hnd
        omega
      · exact hc.pending_empty o2 nid2 hmem hnexp nd hnd
  · intro nid2 hexp2 o2 hmem nd hnd
    simp only [schedNewState] at hexp2
    have hlt : nid2 < st.next_id := by
      obtain ⟨o3, ho3⟩ := hc.expanded_sched nid2 hexp2
      exact hc.nid_lt (o3, nid2) ho3
    simp only [schedNewState, List.mem_cons] at hmem hnd
    rcases hmem with hmem | hmem
    · injection hmem with h1 h2
      omega
    · rcases hnd with hnd | hnd
      · injection hnd with h1 h2
        omega
      · obtain ⟨he, hch, hs⟩ := hc.done nid2 hexp2 o2 hmem nd hnd
        refine ⟨he, hch, ?_⟩
        intro t ht
        obtain ⟨nid3, hn3⟩ := hs t ht
        exact ⟨nid3, by simp only [schedNewState, List.mem_cons]; exact Or.inr hn3⟩

theorem pendingExcept_schedNew (st : BState) (o : Nat) (k : ClassKind)
    (ex : List (Nat × Nat)) (hp : pendingExcept ex st) :
    pendingExcept ex (schedNewState st o k) := by
  intro o2 nid2 hmem
  simp only [schedNewState, List.mem_cons] at hmem
  rcases hmem with hmem | hmem
  · injection hmem with h1 h2
    subst h1; subst h2
    exact Or.inr (Or.inr (by simp [schedNewState]))
  · rcases hp o2 nid2 hmem with h | h | h
    · exact Or.inl h
    · exact Or.inr (Or.inl (by simpa [schedNewState] using h))
    · exact Or.inr (Or.inr (by simp only [schedNewState, List.mem_cons]; exact Or.inr h))

theorem safe_iter_targets_lt (g : ObjGraph) (hWF : WFGraph g) (o : Nat)
    (ho : o < g.n) (x : Option String) (v : Nat)
    (h : (x, v) ∈ safe_iter_members g o) : v < g.n := by
  unfold safe_iter_members at h
  by_cases hp : g.dictIsPlain o = true
  · rw [if_pos hp] at h
    exact (hWF o ho).1 (x, v) h
  · rw [if_neg hp] at h
    cases h

theorem esEager_cons (g : ObjGraph) (incl : Bool) (e : Option String × Nat)
    (rest : List (Option String × Nat)) (name : String) :
    esEager g incl (e :: rest) name ↔
      ((e.1 = some name ∧ is_public_name name incl = true ∧
        (classifyRes g e.2 = none ∨ classifyRes g e.2 = some ClassKind.eager)) ∨
       esEager g incl rest name) := by
  unfold esEager
  constructor
  · rintro ⟨v, hv, hpub, hcl⟩
    rcases List.mem_cons.mp hv with h | h
    · left
      rw [← h]
      exact ⟨rfl, hpub, hcl⟩
    · exact Or.inr ⟨v, h, hpub, hcl⟩
  · rintro (⟨h1, hpub, hcl⟩ | ⟨v, hv, hpub, hcl⟩)
    · refine ⟨e.2, ?_, hpub, hcl⟩
      have he : e = (some name, e.2) := by
        obtain ⟨e1, e2⟩ := e
        simp at h1
        simp [h1]
      rw [← he]
      exact List.mem_cons_self e rest
    · exact ⟨v, List.mem_cons_of_mem e hv, hpub, hcl⟩

theorem esChild_cons (g : ObjGraph) (incl : Bool) (e : Option String × Nat)
    (rest : List (Option String × Nat)) (name : String) :
    esChild g incl (e :: rest) name ↔
      ((e.1 = some name ∧ is_public_name name incl = true ∧
        ∃ k, classifyRes g e.2 = some k ∧ k ≠ ClassKind.eager) ∨
       esChild g incl rest name) := by
  unfold esChild
  constructor
  · rintro ⟨v, hv, hpub, hcl⟩
    rcases List.mem_cons.mp hv with h | h
    · left
      rw [← h]
      exact ⟨rfl, hpub, hcl⟩
    · exact Or.inr ⟨v, h, hpub, hcl⟩
  · rintro (⟨h1, hpub, hcl⟩ | ⟨v, hv, hpub, hcl⟩)
    · refine ⟨e.2, ?_, hpub, hcl⟩
      have he : e = (some name, e.2) := by
        obtain ⟨e1, e2⟩ := e
        simp at h1
        simp [h1]
      rw [← he]
      exact List.mem_cons_self e rest
    · exact ⟨v, List.mem_cons_of_mem e hv, hpub, hcl⟩

theorem processMember_skip_nonstring (g : ObjGraph) (incl : Bool)
    (st : BState) (node : SumNode) (v0 : Nat) :
    processMember g incl (st, node) (none, v0) = .ok (st, node) := rfl

theorem processMember_skip_private (g : ObjGraph) (incl : Bool) (st : BState)
    (node : SumNode) (name0 : String) (v0 : Nat)
    (hpub : is_public_name name0 incl = false) :
    processMember g incl (st, node) (some name0, v0) = .ok (st, node) := by
  unfold processMember
  simp [hpub]

theorem processMember_eager_eq (g : ObjGraph) (incl : Bool) (st : BState)
    (node : SumNode) (name0 : String) (v0 : Nat)
    (hpub : is_public_name name0 incl = true)
    (hcl : classifyRes g v0 = none ∨ classifyRes g v0 = some ClassKind.eager) :
    processMember g incl (st, node) (some name0, v0) =
      .ok (st, { node with eager := addEager node.eager name0 }) := by
  unfold processMember
  rcases hcl with hcl | hcl <;> simp [hpub, hcl]

theorem processMember_child_eq (g : ObjGraph) (incl : Bool) (st : BState)
    (node : SumNode) (name0 : String) (v0 : Nat) (k2 : ClassKind)
    (nid : Nat) (stS : BState)
    (hpub : is_public_name name0 incl = true)
    (hcl : classifyRes g v0 = some k2) (hke : k2 ≠ ClassKind.eager)
    (hsched : schedule g st v0 = .ok (nid, stS)) :
    processMember g incl (st, node) (some name0, v0) =
      .ok (stS, { node with children := updateA node.children name0 nid }) := by
  unfold processMember
  simp only []
  rw [hcl]
  cases k2 with
  | eager => exact absurd rfl hke
  | ns => simp [hpub, hsched, bind, Except.bind]
  | type => simp [hpub, hsched, bind, Except.bind]
  | fn => simp [hpub, hsched, bind, Except.bind]

theorem processMembers_cons_ok (g : ObjGraph) (incl : Bool)
    (e : Option String × Nat) (rest : List (Option String × Nat))
    (acc acc2 : BState × SumNode)
    (hstep : processMember g incl acc e = .ok acc2) :
    processMembers g incl (e :: rest) acc =
      processMembers g incl rest acc2 := by
  unfold processMembers
  simp [hstep, bind, Except.bind]
  cases rest <;> rfl

/-- Everything the member loop guarantees about its final state and node:
invariants preserved, the expanded set untouched, the scheduled map grown
monotonically, worklist additions carrying fresh ids only, the measure
unchanged, the node kind untouched, the eager and children contents grown by
exactly the qualifying entries of the processed member list, and every
non-eager qualifying member value scheduled. -/

theorem processMembers_spec (g : ObjGraph) (incl : Bool) (r : Nat)
    (hWF : WFGraph g) (o : Nat) (ho : o < g.n)
    (hreach : ReachTrav g incl r o) (ex : List (Nat × Nat)) :
    ∀ (es : List (Option String × Nat)) (st : BState) (node : SumNode),
      InvCore g incl r st → pendingExcept ex st →
      (∀ e ∈ es, e ∈ safe_iter_members g o) →
      ∃ st' node',
        processMembers g incl es (st, node) = .ok (st', node') ∧
        PMOut g incl r ex es st node st' node' := by
  intro es
  induction es with
  | nil =>
    intro st node hc hpe _
    refine ⟨st, node, rfl, hc, hpe, rfl, fun p hp => hp, ?_, le_refl _, rfl,
      rfl, ?_, ?_, ?_⟩
    · intro p hp
      exact Or.inl hp
    · intro name
      simp [esEager]
    · intro name
      simp [esChild]
    · intro name v hv
      cases hv
  | cons e rest ih =>
    intro st node hc hpe hes
    have hesrest : ∀ e2 ∈ rest, e2 ∈ safe_iter_members g o :=
      fun e2 he2 => hes e2 (List.mem_cons_of_mem e he2)
    have hehead : e ∈ safe_iter_members g o := hes e (List.mem_cons_self e rest)
    obtain ⟨key, v0⟩ := e
    cases key with
    | none =>
      obtain ⟨st', node', heq, hout⟩ := ih st node hc hpe hesrest
      obtain ⟨h1, h2, h3, h4, h5, h6, h7, h8, h9, h10, h11⟩ := hout
      refine ⟨st', node', ?_, h1, h2, h3, h4, h5, h6, h7, h8, ?_, ?_, ?_⟩
      · rw [processMembers_cons_ok g incl (none, v0) rest (st, node) (st, node)
          (processMember_skip_nonstring g incl st node v0)]
        exact heq
      · intro name
        rw [h9 name, esEager_cons]
        simp
      · intro name
        rw [h10 name, esChild_cons]
        simp
      · intro name v hv hpub2 k2 hk2 hke2
        rcases List.mem_cons.mp hv with hv | hv
        · cases hv
        · exact h11 name v hv hpub2 k2 hk2 hke2
    | some name0 =>
      by_cases hpub : is_public_name name0 incl = true
      · cases hcl : classifyRes g v0 with
        | none =>
          obtain ⟨st', node', heq, hout⟩ := ih st
            { node with eager := addEager node.eager name0 } hc hpe hesrest
          obtain ⟨h1, h2, h3, h4, h5, h6, h7, h8, h9, h10, h11⟩ := hout
          refine ⟨st', node', ?_, h1, h2, h3, h4, h5, h6, h7, h8, ?_, ?_, ?_⟩
          · rw [processMembers_cons_ok g incl (some name0, v0) rest (st, node) _
              (processMember_eager_eq g incl st node name0 v0 hpub (Or.inl hcl))]
            exact heq
          · intro name
            rw [h9 name, esEager_cons]
            simp only [mem_addEager]
            constructor
            · rintro ((h | h) | h)
              · subst h
                exact Or.inr (Or.inl ⟨rfl, hpub, Or.inl hcl⟩)
              · exact Or.inl h
              · exact Or.inr (Or.inr h)
            · rintro (h | ⟨⟨he1, hpub2, hcl2⟩ | h⟩)
              · exact Or.inl (Or.inr h)
              · injection he1 with he1
                exact Or.inl (Or.inl he1.symm)
              · exact Or.inr h
          · intro name
            rw [h10 name, esChild_cons]
            simp only []
            constructor
            · rintro (h | h)
              · exact Or.inl h
              · exact Or.inr (Or.inr h)
            · rintro (h | ⟨⟨he1, hpub2, k2, hk2, hke2⟩ | h⟩)
              · exact Or.inl h
              · rw [hcl] at hk2
                cases hk2
              · exact Or.inr h
          · intro name v hv hpub2 k2 hk2 hke2
            rcases List.mem_cons.mp hv with hv | hv
            · injection hv with hva hvb
              injection hva with hva
              subst hvb
              rw [hcl] at hk2
              cases hk2
            · exact h11 name v hv hpub2 k2 hk2 hke2
        | some k2 =>
          cases hke2 : decide (k2 = ClassKind.eager) with
          | true =>
            have hk2e : k2 = ClassKind.eager := of_decide_eq_true hke2
            subst hk2e
            obtain ⟨st', node', heq, hout⟩ := ih st
              { node with eager := addEager node.eager name0 } hc hpe hesrest
            obtain ⟨h1, h2, h3, h4, h5, h6, h7, h8, h9, h10, h11⟩ := hout
            refine ⟨st', node', ?_, h1, h2, h3, h4, h5, h6, h7, h8, ?_, ?_, ?_⟩
            · rw [processMembers_cons_ok g incl (some name0, v0) rest (st, node) _
                (processMember_eager_eq g incl st node name0 v0 hpub (Or.inr hcl))]
              exact heq
            · intro name
              rw [h9 name, esEager_cons]
              simp only [mem_addEager]
              constructor
              · rintro ((h | h) | h)
                · subst h
                  exact Or.inr (Or.inl ⟨rfl, hpub, Or.inr hcl⟩)
                · exact Or.inl h
                · exact Or.inr (Or.inr h)
              · rintro (h | ⟨⟨he1, hpub2, hcl2⟩ | h⟩)
                · exact Or.inl (Or.inr h)
                · injection he1 with he1
                  exact Or.inl (Or.inl he1.symm)
                · exact Or.inr h
            · intro name
              rw [h10 name, esChild_cons]
              simp only []
              constructor
              · rintro (h | h)
                · exact Or.inl h
                · exact Or.inr (Or.inr h)
              · rintro (h | ⟨⟨he1, hpub2, k3, hk3, hke3⟩ | h⟩)
                · exact Or.inl h
                · rw [hcl] at hk3
                  injection hk3 with hk3
                  exact absurd hk3.symm hke3
                · exact Or.inr h
            · intro name v hv hpub2 k3 hk3 hke3
              rcases List.mem_cons.mp hv with hv | hv
              · injection hv with hva hvb
                injection hva with hva
                subst hvb
                rw [hcl] at hk3
                injection hk3 with hk3
                exact absurd hk3.symm hke3
              · exact h11 name v hv hpub2 k3 hk3 hke3
          | false =>
            have hk2e : k2 ≠ ClassKind.eager := of_decide_eq_false hke2
            have hv0lt : v0 < g.n :=
              safe_iter_targets_lt g hWF o ho (some name0) v0 hehead
            have hqe : qualEdge g incl o v0 :=
              ⟨name0, hehead, hpub, k2, hcl, hk2e⟩
            have hreachv : ReachTrav g incl r v0 :=
              Relation.ReflTransGen.tail hreach hqe
            cases hlk : lookupA st.objid_to_nodeid v0 with
            | some nid =>
              have hmemv : (v0, nid) ∈ st.objid_to_nodeid := lookupA_mem hlk
              have hsched : schedule g st v0 = .ok (nid, st) :=
                schedule_existing g incl r st v0 nid k2 hc hcl hk2e hmemv
              obtain ⟨st', node', heq, hout⟩ := ih st
                { node with children := updateA node.children name0 nid }
                hc hpe hesrest
              obtain ⟨h1, h2, h3, h4, h5, h6, h7, h8, h9, h10, h11⟩ := hout
              refine ⟨st', node', ?_, h1, h2, h3, h4, h5, h6, h7, h8, ?_, ?_, ?_⟩
              · rw [processMembers_cons_ok g incl (some name0, v0) rest
                  (st, node) _
                  (processMember_child_eq g incl st node name0 v0 k2 nid st
                    hpub hcl hk2e hsched)]
                exact heq
              · intro name
                rw [h9 name, esEager_cons]
                simp only []
                constructor
                · rintro (h | h)
                  · exact Or.inl h
                  · exact Or.inr (Or.inr h)
                · rintro (h | ⟨⟨he1, hpub2, hcl2⟩ | h⟩)
                  · exact Or.inl h
                  · rcases hcl2 with hcl2 | hcl2 <;> rw [hcl] at hcl2
                    · cases hcl2
                    · injection hcl2 with hcl2
                      exact absurd hcl2 hk2e
                  · exact Or.inr h
              · intro name
                rw [h10 name, esChild_cons]
                simp only []
                by_cases hname : name = name0
                · subst hname
                  simp only [lookupA_updateA_self]
                  constructor
                  · intro _
                    exact Or.inr (Or.inl ⟨by simp, hpub, k2, hcl, hk2e⟩)
                  · intro _
                    exact Or.inl (by simp)
                · rw [lookupA_updateA_ne node.children name0 name nid hname]
                  constructor
                  · rintro (h | h)
                    · exact Or.inl h
                    · exact Or.inr (Or.inr h)
                  · rintro (h | ⟨⟨he1, hpub2, k3, hk3, hke3⟩ | h⟩)
                    · exact Or.inl h
                    · injection he1 with he1
                      exact absurd he1.symm hname
                    · exact Or.inr h
              · intro name v hv hpub2 k3 hk3 hke3
                rcases List.mem_cons.mp hv with hv | hv
                · injection hv with hva hvb
                  rw [hvb, lookupA_isSome_iff]
                  exact ⟨nid, h4 (v0, nid) hmemv⟩
                · exact h11 name v hv hpub2 k3 hk3 hke3
            | none =>
              have hsched : schedule g st v0 =
                  .ok (st.next_id, schedNewState st v0 k2) :=
                schedule_new_eq g st v0 k2 hcl hk2e hlk
                  (nextid_not_expanded g incl r st hc)
                  (nextid_not_in_nid g incl r st hc)
              have hc1 : InvCore g incl r (schedNewState st v0 k2) :=
                invCore_schedNew g incl r st v0 k2 hc hcl hk2e hlk hv0lt hreachv
              have hpe1 : pendingExcept ex (schedNewState st v0 k2) :=
                pendingExcept_schedNew st v0 k2 ex hpe
              obtain ⟨st', node', heq, hout⟩ := ih (schedNewState st v0 k2)
                { node with children := updateA node.children name0 st.next_id }
                hc1 hpe1 hesrest
              obtain ⟨h1, h2, h3, h4, h5, h6, h7, h8, h9, h10, h11⟩ := hout
              have hmu1 : muB g (schedNewState st v0 k2) = muB g st := by
                have hle : (schedNewState st v0 k2).objid_to_nodeid.length ≤ g.n :=
                  sched_len_le g incl r _ hc1
                simp only [schedNewState, muB, List.length_cons] at hle ⊢
                omega
              refine ⟨st', node', ?_, h1, h2, ?_, ?_, ?_, ?_, ?_, h8, ?_, ?_, ?_⟩
              · rw [processMembers_cons_ok g incl (some name0, v0) rest
                  (st, node) _
                  (processMember_child_eq g incl st node name0 v0 k2 st.next_id
                    (schedNewState st v0 k2) hpub hcl hk2e hsched)]
                exact heq
              · rw [h3]
                rfl
              · intro p hp
                exact h4 p (by
                  simp only [schedNewState, List.mem_cons]
                  exact Or.inr hp)
              · intro p hp
                rcases h5 p hp with hp2 | hp2
                · simp only [schedNewState, List.mem_cons] at hp2
                  rcases hp2 with hp2 | hp2
                  · subst hp2
                    exact Or.inr (le_refl _)
                  · exact Or.inl hp2
                · simp only [schedNewState] at hp2
                  exact Or.inr (by omega)
              · have : (schedNewState st v0 k2).next_id = st.next_id + 1 := rfl
                omega
              · rw [h7, hmu1]
              · intro name
                rw [h9 name, esEager_cons]
                simp only []
                constructor
                · rintro (h | h)
                  · exact Or.inl h
                  · exact Or.inr (Or.inr h)
                · rintro (h | ⟨⟨he1, hpub2, hcl2⟩ | h⟩)
                  · exact Or.inl h
                  · rcases hcl2 with hcl2 | hcl2 <;> rw [hcl] at hcl2
                    · cases hcl2
                    · injection hcl2 with hcl2
                      exact absurd hcl2 hk2e
                  · exact Or.inr h
              · intro name
                rw [h10 name, esChild_cons]
                simp only []
                by_cases hname : name = name0
                · subst hname
                  simp only [lookupA_updateA_self]
                  constructor
                  · intro _
                    exact Or.inr (Or.inl ⟨by simp, hpub, k2, hcl, hk2e⟩)
                  · intro _
                    exact Or.inl (by simp)
                · rw [lookupA_updateA_ne node.children name0 name st.next_id hname]
                  constructor
                  · rintro (h | h)
                    · exact Or.inl h
                    · exact Or.inr (Or.inr h)
                  · rintro (h | ⟨⟨he1, hpub2, k3, hk3, hke3⟩ | h⟩)
                    · exact Or.inl h
                    · injection he1 with he1
                      exact absurd he1.symm hname
                    · exact Or.inr h
              · intro name v hv hpub2 k3 hk3 hke3
                rcases List.mem_cons.mp hv with hv | hv
                · injection hv with hva hvb
                  rw [hvb, lookupA_isSome_iff]
                  refine ⟨st.next_id, h4 (v0, st.next_id) ?_⟩
                  simp [schedNewState]
                · exact h11 name v hv hpub2 k3 hk3 hke3
      · have hpubf : is_public_name name0 incl = false := by
          cases h : is_public_name name0 incl
          · rfl
          · exact absurd h hpub
        obtain ⟨st', node', heq, hout⟩ := ih st node hc hpe hesrest
        obtain ⟨h1, h2, h3, h4, h5, h6, h7, h8, h9, h10, h11⟩ := hout
        refine ⟨st', node', ?_, h1, h2, h3, h4, h5, h6, h7, h8, ?_, ?_, ?_⟩
        · rw [processMembers_cons_ok g incl (some name0, v0) rest (st, node)
            (st, node)
            (processMember_skip_private g incl st node name0 v0 hpubf)]
          exact heq
        · intro name
          rw [h9 name, esEager_cons]
          simp only []
          constructor
          · rintro (h | h)
            · exact Or.inl h
            · exact Or.inr (Or.inr h)
          · rintro (h | ⟨⟨he1, hpub2, hcl2⟩ | h⟩)
            · exact Or.inl h
            · injection he1 with he1
              rw [← he1] at hpub2
              exact absurd hpub2 hpub
            · exact Or.inr h
        · intro name
          rw [h10 name, esChild_cons]
          simp only []
          constructor
          · rintro (h | h)
            · exact Or.inl h
            · exact Or.inr (Or.inr h)
          · rintro (h | ⟨⟨he1, hpub2, hk⟩ | h⟩)
            · exact Or.inl h
            · injection he1 with he1
              rw [← he1] at hpub2
              exact absurd hpub2 hpub
            · exact Or.inr h
        · intro name v hv hpub2 k3 hk3 hke3
          rcases List.mem_cons.mp hv with hv | hv
          · injection hv with hva hvb
            injection hva with hva
            rw [hva] at hpub2
            exact absurd hpub2 hpub
          · exact h11 name v hv hpub2 k3 hk3 hke3

theorem objid_inj (g : ObjGraph) (incl : Bool) (r : Nat) (st : BState)
    (hc : InvCore g incl r st) (o1 o2 nid : Nat)
    (h1 : (o1, nid) ∈ st.objid_to_nodeid)
    (h2 : (o2, nid) ∈ st.objid_to_nodeid) : o1 = o2 := by
  have e1 := mem_lookupA hc.nid_nodup ((hc.sync o1 nid).mp h1)
  have e2 := mem_lookupA hc.nid_nodup ((hc.sync o2 nid).mp h2)
  rw [e1] at e2
  exact Option.some.inj e2

theorem mem_updateA_self_eq {α β : Type} [DecidableEq α]
    {l : List (α × β)} {k : α} {v w : β}
    (hnd : (l.map Prod.fst).Nodup) (hk : (lookupA l k).isSome)
    (h : (k, w) ∈ updateA l k v) : w = v := by
  have hnd2 : ((updateA l k v).map Prod.fst).Nodup := by
    rw [map_fst_updateA l k v hk]
    exact hnd
  have e1 := mem_lookupA hnd2 h
  rw [lookupA_updateA_self] at e1
  injection e1 with e1
  exact e1.symm

/-- One non-skipped iteration of the worklist loop, as an equation. -/

theorem buildLoop_step (g : ObjGraph) (incl : Bool) (fuel : Nat)
    (st : BState) (o nid : Nat) (rest : List (Nat × Nat)) (nd : SumNode)
    (st2 : BState) (node2 : SumNode)
    (hte : st.to_expand = (o, nid) :: rest)
    (hnexp : nid ∉ st.expanded)
    (hlk : lookupA st.nodes nid = some nd)
    (heq : processMembers g incl (safe_iter_members g o)
      ({ st with to_expand := rest }, nd) = .ok (st2, node2)) :
    buildLoop g incl (fuel + 1) st =
      buildLoop g incl fuel
        { st2 with
          nodes := updateA st2.nodes nid node2,
          expanded := nid :: st2.expanded } := by
  conv_lhs => rw [buildLoop]
  rw [hte]
  simp only []
  rw [if_neg hnexp]
  have hlk1 : lookupA ({ st with to_expand := rest } : BState).nodes nid =
      some nd := hlk
  rw [hlk1]
  simp only []
  rw [heq]
  simp [bind, Except.bind]

/-- The worklist loop terminates with the invariant, an empty worklist and a
monotonically grown scheduled map, whenever the fuel covers the measure. -/

theorem buildLoop_spec (g : ObjGraph) (incl : Bool) (r : Nat)
    (hWF : WFGraph g) :
    ∀ (fuel : Nat) (st : BState),
      InvCore g incl r st → pendingExcept [] st → muB g st ≤ fuel →
      ∃ stF, buildLoop g incl fuel st = .ok (some stF) ∧
        InvCore g incl r stF ∧ pendingExcept [] stF ∧
        stF.to_expand = [] ∧
        (∀ p ∈ st.objid_to_nodeid, p ∈ stF.objid_to_nodeid) := by
  intro fuel
  induction fuel with
  | zero =>
    intro st hc hpe hmu
    have hte : st.to_expand = [] := by
      unfold muB at hmu
      cases h : st.to_expand with
      | nil => rfl
      | cons a l =>
        rw [h] at hmu
        simp at hmu
    refine ⟨st, ?_, hc, hpe, hte, fun p hp => hp⟩
    rw [buildLoop, hte]
  | succ fuel ihf =>
    intro st hc hpe hmu
    cases hte : st.to_expand with
    | nil =>
      refine ⟨st, ?_, hc, hpe, hte, fun p hp => hp⟩
      rw [buildLoop, hte]
    | cons hd rest =>
      obtain ⟨o, nid⟩ := hd
      have hws := hc.work_sched (o, nid)
        (by rw [hte]; exact List.mem_cons_self _ _)
      have hmem : (o, nid) ∈ st.objid_to_nodeid := hws.1
      have hnexp : nid ∉ st.expanded := hws.2
      have hnidlt : nid < st.next_id := hc.nid_lt (o, nid) hmem
      have hrestnid : nid ∉ rest.map Prod.snd := by
        have := hc.work_nodup
        rw [hte] at this
        simp only [List.map_cons, List.nodup_cons] at this
        exact this.1
      have hc1 : InvCore g incl r { st with to_expand := rest } := by
        refine ⟨hc.obj_nodup, hc.nid_nodup, hc.nodes_nodup, hc.sync,
          hc.len_nodes, hc.len_sched, hc.nid_lt, hc.nodes_dom, hc.obj_lt,
          hc.obj_kind, hc.reach, ?_, ?_, hc.expanded_sched,
          hc.pending_empty, ?_⟩
        · intro p hp
          exact hc.work_sched p (by rw [hte]; exact List.mem_cons_of_mem _ hp)
        · have := hc.work_nodup
          rw [hte] at this
          simp only [List.map_cons, List.nodup_cons] at this
          exact this.2
        · intro nid2 hexp2 o2 hmem2 nd2 hnd2
          obtain ⟨he, hch, hs⟩ := hc.done nid2 hexp2 o2 hmem2 nd2 hnd2
          exact ⟨he, hch, hs⟩
      have hpe1 : pendingExcept [(o, nid)] { st with to_expand := rest } := by
        intro o2 nid2 hmem2
        rcases hpe o2 nid2 hmem2 with h | h | h
        · cases h
        · exact Or.inr (Or.inl h)
        · rw [hte] at h
          rcases List.mem_cons.mp h with h | h
          · exact Or.inl (by simp [h])
          · exact Or.inr (Or.inr h)
      obtain ⟨nd, hnd⟩ := (hc.nodes_dom nid).mpr ⟨o, hmem⟩
      have hlk : lookupA st.nodes nid = some nd :=
        mem_lookupA hc.nodes_nodup hnd
      have hempty := hc.pending_empty o nid hmem hnexp nd hnd
      obtain ⟨st2, node2, heq2, hout⟩ := processMembers_spec g incl r hWF o
        (hc.obj_lt (o, nid) hmem) (hc.reach (o, nid) hmem) [(o, nid)]
        (safe_iter_members g o) { st with to_expand := rest } nd hc1 hpe1
        (fun e he => he)
      obtain ⟨hc2, hpe2, h3, h4, h5, h6, h7, h8, h9, h10, h11⟩ := hout
      have hmemv2 : (o, nid) ∈ st2.objid_to_nodeid := h4 (o, nid) hmem
      have hnexp2 : nid ∉ st2.expanded := by
        rw [h3]
        exact hnexp
      have hworknid : ∀ p ∈ st2.to_expand, p.2 ≠ nid := by
        intro p hp
        rcases h5 p hp with hp2 | hp2
        · intro hcontra
          exact hrestnid (by rw [← hcontra]; exact List.mem_map_of_mem _ hp2)
        · simp only [] at hp2
          omega
      have hnodes2 : (lookupA st2.nodes nid).isSome := by
        rw [lookupA_isSome_iff]
        exact (hc2.nodes_dom nid).mpr ⟨o, hmemv2⟩
      have hc3 : InvCore g incl r
          { st2 with
            nodes := updateA st2.nodes nid node2,
            expanded := nid :: st2.expanded } := by
        refine ⟨hc2.obj_nodup, hc2.nid_nodup, ?_, hc2.sync, ?_,
          hc2.len_sched, hc2.nid_lt, ?_, hc2.obj_lt, ?_, hc2.reach,
          ?_, hc2.work_nodup, ?_, ?_, ?_⟩
        · simp only [map_fst_updateA st2.nodes nid node2 hnodes2]
          exact hc2.nodes_nodup
        · simp only [length_updateA st2.nodes nid node2 hnodes2]
          exact hc2.len_nodes
        · intro nid2
          simp only []
          rw [exists_mem_updateA st2.nodes nid nid2 node2 hnodes2]
          exact hc2.nodes_dom nid2
        · intro o2 nid2 hmem2
          obtain ⟨k2, hk2, hk2e, hknd⟩ := hc2.obj_kind o2 nid2 hmem2
          refine ⟨k2, hk2, hk2e, ?_⟩
          intro nd3 hnd3
          simp only [] at hnd3
          by_cases hn : nid2 = nid
          · rw [hn] at hnd3 hmem2
            have he3 : nd3 = node2 :=
              mem_updateA_self_eq hc2.nodes_nodup hnodes2 hnd3
            have ho2 : o2 = o :=
              objid_inj g incl r st2 hc2 o2 o nid hmem2 hmemv2
            obtain ⟨k5, hk5, hk5e, hknd5⟩ := hc.obj_kind o nid hmem
            have hk2b : k2 = k5 := by
              rw [ho2, hk5] at hk2
              exact (Option.some.inj hk2).symm
            rw [he3, h8, hknd5 nd hnd]
            exact hk2b.symm
          · exact hknd nd3 ((mem_updateA_ne st2.nodes nid nid2 node2 nd3 hn).mp hnd3)
        · intro p hp
          obtain ⟨hp1, hp2⟩ := hc2.work_sched p hp
          refine ⟨hp1, ?_⟩
          simp only [List.mem_cons]
          intro hcontra
          rcases hcontra with hcontra | hcontra
          · exact hworknid p hp hcontra
          · exact hp2 hcontra
        · intro nid2 hexp2
          simp only [List.mem_cons] at hexp2
          rcases hexp2 with hexp2 | hexp2
          · subst hexp2
            exact ⟨o, hmemv2⟩
          · exact hc2.expanded_sched nid2 hexp2
        · intro o2 nid2 hmem2 hnexp3 nd3 hnd3
          simp only [List.mem_cons] at hnexp3 hnd3
          push_neg at hnexp3
          have hn : nid2 ≠ nid := hnexp3.1
          exact hc2.pending_empty o2 nid2 hmem2 hnexp3.2 nd3
            ((mem_updateA_ne st2.nodes nid nid2 node2 nd3 hn).mp hnd3)
        · intro nid2 hexp2 o2 hmem2 nd3 hnd3
          simp only [List.mem_cons] at hexp2 hnd3
          by_cases hn : nid2 = nid
          · rw [hn] at hnd3 hmem2
            have he3 : nd3 = node2 :=
              mem_updateA_self_eq hc2.nodes_nodup hnodes2 hnd3
            have ho2 : o2 = o :=
              objid_inj g incl r st2 hc2 o2 o nid hmem2 hmemv2
            rw [he3, ho2]
            refine ⟨?_, ?_, ?_⟩
            · intro name
              rw [h9 name, hempty.2]
              simp
            · intro name
              rw [h10 name, hempty.1]
              simp [lookupA]
            · intro t ht
              obtain ⟨name2, hmem3, hpub3, k3, hk3, hke3⟩ := ht
              have := h11 name2 t hmem3 hpub3 k3 hk3 hke3
              rw [lookupA_isSome_iff] at this
              obtain ⟨nid3, hnid3⟩ := this
              exact ⟨nid3, hnid3⟩
          · rcases hexp2 with hexp2 | hexp2
            · exact absurd hexp2 hn
            · obtain ⟨he, hch, hs⟩ := hc2.done nid2 hexp2 o2 hmem2 nd3
                ((mem_updateA_ne st2.nodes nid nid2 node2 nd3 hn).mp hnd3)
              exact ⟨he, hch, hs⟩
      have hpe3 : pendingExcept []
          { st2 with
            nodes := updateA st2.nodes nid node2,
            expanded := nid :: st2.expanded } := by
        intro o2 nid2 hmem2
        rcases hpe2 o2 nid2 hmem2 with h | h | h
        · simp only [List.mem_singleton] at h
          injection h with ha hb
          subst hb
          exact Or.inr (Or.inl (by simp))
        · exact Or.inr (Or.inl (by simp only [List.mem_cons]; exact Or.inr h))
        · exact Or.inr (Or.inr h)
      have hmu3 : muB g
          { st2 with
            nodes := updateA st2.nodes nid node2,
            expanded := nid :: st2.expanded } ≤ fuel := by
        have hmu2 : muB g st2 = muB g { st with to_expand := rest } := h7
        have hstep : muB g { st with to_expand := rest } + 1 = muB g st := by
          unfold muB
          simp only [hte]
          simp [List.length_cons]
          omega
        have : muB g
            { st2 with
              nodes := updateA st2.nodes nid node2,
              expanded := nid :: st2.expanded } = muB g st2 := rfl
        omega
      obtain ⟨stF, heqF, hcF, hpeF, hteF, hmonoF⟩ := ihf
        { st2 with
          nodes := updateA st2.nodes nid node2,
          expanded := nid :: st2.expanded } hc3 hpe3 hmu3
      refine ⟨stF, ?_, hcF, hpeF, hteF, ?_⟩
      · rw [buildLoop_step g incl fuel st o nid rest nd st2 node2 hte hnexp
          hlk heq2]
        exact heqF
      · intro p hp
        exact hmonoF p (h4 p hp)

theorem invCore_init (g : ObjGraph) (incl : Bool) (r : Nat) :
    InvCore g incl r initBState := by
  refine ⟨?_, ?_, ?_, ?_, ?_, ?_, ?_, ?_, ?_, ?_, ?_, ?_, ?_, ?_, ?_, ?_⟩
  · simp [initBState]
  · simp [initBState]
  · simp [initBState]
  · intro o nid
    simp [initBState]
  · rfl
  · rfl
  · intro p hp
    simp [initBState] at hp
  · intro nid
    simp [initBState]
  · intro p hp
    simp [initBState] at hp
  · intro o nid h
    simp [initBState] at h
  · intro p hp
    simp [initBState] at hp
  · intro p hp
    simp [initBState] at hp
  · simp [initBState]
  · intro nid h
    simp [initBState] at h
  · intro o nid h
    simp [initBState] at h
  · intro nid h
    simp [initBState] at h

theorem build_summary_master (g : ObjGraph) (incl : Bool) (root_obj : Nat)
    (hWF : WFGraph g) (hroot : root_obj < g.n) (k0 : ClassKind)
    (hk0 : classifyRes g root_obj = some k0) (hk0e : k0 ≠ ClassKind.eager) :
    ∃ stF : BState,
      build_summary g incl root_obj =
        .ok (some ⟨0, stF.nodes.map (fun p => (toString p.1, serializeNode p.2))⟩) ∧
      InvCore g incl root_obj stF ∧ pendingExcept [] stF ∧
      stF.to_expand = [] ∧ (root_obj, 0) ∈ stF.objid_to_nodeid := by
  have hsched : schedule g initBState root_obj =
      .ok (0, schedNewState initBState root_obj k0) :=
    schedule_new_eq g initBState root_obj k0 hk0 hk0e rfl
      (by simp [initBState]) rfl
  have hc1 : InvCore g incl root_obj (schedNewState initBState root_obj k0) :=
    invCore_schedNew g incl root_obj initBState root_obj k0
      (invCore_init g incl root_obj) hk0 hk0e rfl hroot
      Relation.ReflTransGen.refl
  have hpe1 : pendingExcept [] (schedNewState initBState root_obj k0) :=
    pendingExcept_schedNew initBState root_obj k0 []
      (by intro o nid h; simp [initBState] at h)
  have hmu1 : muB g (schedNewState initBState root_obj k0) ≤ g.n + 1 := by
    unfold muB schedNewState initBState
    simp
    omega
  obtain ⟨stF, heqF, hcF, hpeF, hteF, hmonoF⟩ :=
    buildLoop_spec g incl root_obj hWF (g.n + 1) _ hc1 hpe1 hmu1
  refine ⟨stF, ?_, hcF, hpeF, hteF, ?_⟩
  · unfold build_summary
    rw [hsched]
    simp only [bind, Except.bind]
    rw [heqF]
  · exact hmonoF (root_obj, 0) (by simp [schedNewState, initBState])

/-- At the end of the loop the scheduled identities are exactly the
identities reachable from the root under the traversal policy. -/

theorem final_sched_iff (g : ObjGraph) (incl : Bool) (rt : Nat)
    (stF : BState) (hc : InvCore g incl rt stF)
    (hpe : pendingExcept [] stF) (hte : stF.to_expand = [])
    (hroot : (rt, 0) ∈ stF.objid_to_nodeid) :
    ∀ t, (∃ nid, (t, nid) ∈ stF.objid_to_nodeid) ↔ ReachTrav g incl rt t := by
  intro t
  constructor
  · rintro ⟨nid, h⟩
    exact hc.reach (t, nid) h
  · intro h
    induction h with
    | refl => exact ⟨0, hroot⟩
    | tail h1 h2 ih =>
      obtain ⟨nidb, hb⟩ := ih
      have hexp : nidb ∈ stF.expanded := by
        rcases hpe _ nidb hb with hx | hx | hx
        · cases hx
        · exact hx
        · rw [hte] at hx
          cases hx
      obtain ⟨nd, hnd⟩ := (hc.nodes_dom nidb).mpr ⟨_, hb⟩
      obtain ⟨_, _, hs⟩ := hc.done nidb hexp _ hb nd hnd
      exact hs _ h2

theorem mem_insertSorted {α : Type} (le : α → α → Bool) (a x : α)
    (l : List α) : x ∈ insertSorted le a l ↔ (x = a ∨ x ∈ l) := by
  induction l with
  | nil => simp [insertSorted]
  | cons b bs ih =>
    unfold insertSorted
    by_cases h : le a b = true
    · simp [h]
    · simp only [h]
      simp [ih]
      tauto

theorem mem_sortBy {α : Type} (le : α → α → Bool) (l : List α) (x : α) :
    x ∈ sortBy le l ↔ x ∈ l := by
  induction l with
  | nil => simp [sortBy]
  | cons b bs ih =>
    unfold sortBy at ih ⊢
    rw [List.foldr_cons, mem_insertSorted, ih]
    simp

theorem lookupA_sortBy_isSome (l : List (String × Nat)) (name : String) :
    (lookupA (sortBy (fun a b => decide (a.1 ≤ b.1)) l) name).isSome ↔
      (lookupA l name).isSome := by
  rw [lookupA_isSome_iff, lookupA_isSome_iff]
  constructor
  · rintro ⟨v, hv⟩
    exact ⟨v, (mem_sortBy _ l (name, v)).mp hv⟩
  · rintro ⟨v, hv⟩
    exact ⟨v, (mem_sortBy _ l (name, v)).mpr hv⟩

theorem nodup_names_unique {l : List (Option String × Nat)}
    (h : (l.filterMap Prod.fst).Nodup) {name : String} {v1 v2 : Nat}
    (h1 : (some name, v1) ∈ l) (h2 : (some name, v2) ∈ l) : v1 = v2 := by
  induction l with
  | nil => cases h1
  | cons e rest ih =>
    obtain ⟨key, w⟩ := e
    cases key with
    | none =>
      rw [List.filterMap_cons] at h
      simp only [] at h
      rcases List.mem_cons.mp h1 with h1 | h1
      · cases h1
      · rcases List.mem_cons.mp h2 with h2 | h2
        · cases h2
        · exact ih h h1 h2
    | some s =>
      rw [List.filterMap_cons] at h
      simp only [] at h
      rw [List.nodup_cons] at h
      rcases List.mem_cons.mp h1 with h1 | h1 <;>
        rcases List.mem_cons.mp h2 with h2 | h2
      · injection h1 with h1a h1b
        injection h2 with h2a h2b
        rw [h1b, h2b]
      · injection h1 with h1a h1b
        injection h1a with h1a
        exfalso
        apply h.1
        exact List.mem_filterMap.mpr ⟨(some name, v2), h2, by rw [h1a]⟩
      · injection h2 with h2a h2b
        injection h2a with h2a
        exfalso
        apply h.1
        exact List.mem_filterMap.mpr ⟨(some name, v1), h1, by rw [h2a]⟩
      · exact ih h.2 h1 h2

theorem safe_iter_names_nodup (g : ObjGraph) (hWF : WFGraph g) (o : Nat)
    (ho : o < g.n) :
    ((safe_iter_members g o).filterMap Prod.fst).Nodup := by
  unfold safe_iter_members
  by_cases hpl : g.dictIsPlain o = true
  · rw [if_pos hpl]
    exact (hWF o ho).2
  · rw [if_neg hpl]
    simp

/-- The eager names and the child names of one object are mutually exclusive,
because the keys of a Python dict are unique and classification is a function
of the member value. -/

theorem es_disjoint (g : ObjGraph) (incl : Bool) (hWF : WFGraph g) (o : Nat)
    (ho : o < g.n) (name : String) :
    ¬(esEager g incl (safe_iter_members g o) name ∧
      esChild g incl (safe_iter_members g o) name) := by
  rintro ⟨⟨v1, hm1, _, hcl1⟩, ⟨v2, hm2, _, k, hk, hke⟩⟩
  have hv : v1 = v2 :=
    nodup_names_unique (safe_iter_names_nodup g hWF o ho) hm1 hm2
  rw [hv] at hcl1
  rcases hcl1 with hcl1 | hcl1
  · rw [hk] at hcl1
    cases hcl1
  · rw [hk] at hcl1
    injection hcl1 with hcl1
    exact hke hcl1

theorem classify_type_isClass (v : PyValue)
    (h : classify_value v = ClassKind.type) : v.isClass = true := by
  unfold classify_value at h
  by_cases hm : v.isModule = true
  · rw [if_pos hm] at h
    cases h
  · rw [if_neg hm] at h
    by_cases hcc : v.isClass = true
    · exact hcc
    · rw [if_neg hcc] at h
      by_cases hf : (v.isFunction || v.isBuiltin || v.isMethodDescriptor) = true
      · rw [if_pos hf] at h
        cases h
      · rw [if_neg hf] at h
        by_cases hcal : v.isCallable = true
        · rw [if_pos hcal] at h
          cases h
        · rw [if_neg hcal] at h
          cases h

theorem kindStr_type (k : ClassKind) (h : kindStr k = "type") :
    k = ClassKind.type := by
  cases k with
  | ns => exact absurd h (by decide)
  | type => rfl
  | fn => exact absurd h (by decide)
  | eager => exact absurd h (by decide)

theorem eager_nil_of_no_mem (l : List String) (h : ∀ x, x ∉ l) : l = [] :=
  List.eq_nil_iff_forall_not_mem.mpr h

theorem children_nil_of_no_lookup (l : List (String × Nat))
    (h : ∀ name, ¬(lookupA l name).isSome) : l = [] := by
  cases l with
  | nil => rfl
  | cons p rest =>
    exfalso
    apply h p.1
    have : lookupA (p :: rest) p.1 = some p.2 := by
      obtain ⟨k, v⟩ := p
      simp [lookupA]
    rw [this]
    rfl

/-- A four-object arena for the builder witnesses: object 0 is a module whose
plain dict holds a function f (object 1), a class T (object 2), an opaque
value c (object 3) and the module itself under self, forming a direct cycle;
object 2 is a class with a mappingproxy dict slot; objects 1 and 3 expose no
plain dict. -/

theorem build_summary_terminates_count (g : ObjGraph) (incl : Bool)
    (root_obj : Nat) (hWF : WFGraph g) (hroot : root_obj < g.n)
    (k0 : ClassKind) (hk0 : classifyRes g root_obj = some k0)
    (hk0e : k0 ≠ ClassKind.eager) :
    ∃ s : Summary, build_summary g incl root_obj = .ok (some s) ∧
      s.nodes.length = Set.ncard { t | ReachTrav g incl root_obj t } := by
  obtain ⟨stF, heq, hc, hpe, hte, hrootm⟩ :=
    build_summary_master g incl root_obj hWF hroot k0 hk0 hk0e
  refine ⟨_, heq, ?_⟩
  have hiff := final_sched_iff g incl root_obj stF hc hpe hte hrootm
  have hK : ∀ t, t ∈ stF.objid_to_nodeid.map Prod.fst ↔
      ReachTrav g incl root_obj t := by
    intro t
    rw [← hiff t]
    constructor
    · intro h
      rcases List.mem_map.mp h with ⟨p, hp, he⟩
      exact ⟨p.2, by rw [← he]; exact hp⟩
    · rintro ⟨nid, h⟩
      exact List.mem_map.mpr ⟨(t, nid), h, rfl⟩
  have hset : { t | ReachTrav g incl root_obj t } =
      ↑(stF.objid_to_nodeid.map Prod.fst).toFinset := by
    ext t
    simp only [Set.mem_setOf_eq, Finset.mem_coe, List.mem_toFinset]
    exact (hK t).symm
  simp only []
  rw [hset, Set.ncard_coe_Finset, List.toFinset_card_of_nodup hc.obj_nodup,
    List.length_map, List.length_map, hc.len_nodes, ← hc.len_sched]

/-- Closed witness for build_summary_terminates_count on a four-object arena
with a self-cycle at the root. -/

theorem build_summary_terminates_count_witness :
    ∃ s : Summary, build_summary g0 false 0 = .ok (some s) ∧
      s.nodes.length = Set.ncard { t | ReachTrav g0 false 0 t } :=
  build_summary_terminates_count g0 false 0 (by decide) (by decide)
    ClassKind.ns (by decide) (by decide)

/-- C7: in every node of every summary produced by build_summary over a
well-formed arena, the eager name set is disjoint from the keys of the
children map. -/

theorem build_summary_eager_children_disjoint (g : ObjGraph) (incl : Bool)
    (root_obj : Nat) (hWF : WFGraph g) (hroot : root_obj < g.n)
    (k0 : ClassKind) (hk0 : classifyRes g root_obj = some k0)
    (hk0e : k0 ≠ ClassKind.eager) :
    ∃ s : Summary, build_summary g incl root_obj = .ok (some s) ∧
      ∀ p ∈ s.nodes, ∀ name : String,
        ¬(name ∈ p.2.eager ∧ (lookupA p.2.children name).isSome) := by
  obtain ⟨stF, heq, hc, hpe, hte, hrootm⟩ :=
    build_summary_master g incl root_obj hWF hroot k0 hk0 hk0e
  refine ⟨_, heq, ?_⟩
  intro p hp name hand
  simp only [] at hp
  rcases List.mem_map.mp hp with ⟨q, hq, hqe⟩
  obtain ⟨nid, nd⟩ := q
  rw [← hqe] at hand
  simp only [serializeNode] at hand
  obtain ⟨hmeme, hchl⟩ := hand
  rw [mem_sortBy] at hmeme
  rw [lookupA_sortBy_isSome] at hchl
  obtain ⟨o, hom⟩ := (hc.nodes_dom nid).mp ⟨nd, hq⟩
  have hexp : nid ∈ stF.expanded := by
    rcases hpe o nid hom with hx | hx | hx
    · cases hx
    · exact hx
    · rw [hte] at hx
      cases hx
  obtain ⟨he, hch, _⟩ := hc.done nid hexp o hom nd hq
  exact es_disjoint g incl hWF o (hc.obj_lt (o, nid) hom) name
    ⟨(he name).mp hmeme, (hch name).mp hchl⟩

/-- Closed witness for build_summary_eager_children_disjoint. -/

theorem build_summary_eager_children_disjoint_witness :
    ∃ s : Summary, build_summary g0 false 0 = .ok (some s) ∧
      ∀ p ∈ s.nodes, ∀ name : String,
        ¬(name ∈ p.2.eager ∧ (lookupA p.2.children name).isSome) :=
  build_summary_eager_children_disjoint g0 false 0 (by decide) (by decide)
    ClassKind.ns (by decide) (by decide)

/-- C10: in every summary produced by build_summary over a well-formed arena
in which class objects expose a mappingproxy dict (the CPython behavior),
every node of kind type has empty children and empty eager names, because
safe_iter_members yields members only from a plain dict. -/

theorem build_summary_type_nodes_empty (g : ObjGraph) (incl : Bool)
    (root_obj : Nat) (hWF : WFGraph g)
    (hcd : classDictsAreMappingProxies g) (hroot : root_obj < g.n)
    (k0 : ClassKind) (hk0 : classifyRes g root_obj = some k0)
    (hk0e : k0 ≠ ClassKind.eager) :
    ∃ s : Summary, build_summary g incl root_obj = .ok (some s) ∧
      ∀ p ∈ s.nodes, p.2.kind = "type" →
        p.2.children = [] ∧ p.2.eager = [] := by
  obtain ⟨stF, heq, hc, hpe, hte, hrootm⟩ :=
    build_summary_master g incl root_obj hWF hroot k0 hk0 hk0e
  refine ⟨_, heq, ?_⟩
  intro p hp hkind
  simp only [] at hp
  rcases List.mem_map.mp hp with ⟨q, hq, hqe⟩
  obtain ⟨nid, nd⟩ := q
  rw [← hqe] at hkind ⊢
  simp only [serializeNode] at hkind ⊢
  have hndk : nd.kind = ClassKind.type := kindStr_type nd.kind hkind
  obtain ⟨o, hom⟩ := (hc.nodes_dom nid).mp ⟨nd, hq⟩
  obtain ⟨k, hk, hke, hknd⟩ := hc.obj_kind o nid hom
  have hkty : k = ClassKind.type := by
    rw [← hndk]
    exact (hknd nd hq).symm
  have hcls : classify_value (g.val o) = ClassKind.type := by
    unfold classifyRes at hk
    by_cases hf : g.classifyFails o = true
    · rw [if_pos hf] at hk
      cases hk
    · rw [if_neg hf] at hk
      injection hk with hk
      rw [hk, hkty]
  have hclass : (g.val o).isClass = true := classify_type_isClass _ hcls
  have hnp : g.dictIsPlain o = false :=
    hcd o (hc.obj_lt (o, nid) hom) hclass
  have hsm : safe_iter_members g o = [] := by
    unfold safe_iter_members
    rw [hnp]
    simp
  have hexp : nid ∈ stF.expanded := by
    rcases hpe o nid hom with hx | hx | hx
    · cases hx
    · exact hx
    · rw [hte] at hx
      cases hx
  obtain ⟨he, hch, _⟩ := hc.done nid hexp o hom nd hq
  have heag : nd.eager = [] := by
    apply eager_nil_of_no_mem
    intro x hx
    have hx2 := (he x).mp hx
    unfold esEager at hx2
    rw [hsm] at hx2
    obtain ⟨v, hv, _⟩ := hx2
    cases hv
  have hchl : nd.children = [] := by
    apply children_nil_of_no_lookup
    intro name hn
    have hn2 := (hch name).mp hn
    unfold esChild at hn2
    rw [hsm] at hn2
    obtain ⟨v, hv, _⟩ := hn2
    cases hv
  rw [heag, hchl]
  exact ⟨rfl, rfl⟩

/-- Closed witness for build_summary_type_nodes_empty: the arena g0 contains
the class object 2, whose summary node must come out empty. -/

theorem build_summary_type_nodes_empty_witness :
    ∃ s : Summary, build_summary g0 false 0 = .ok (some s) ∧
      ∀ p ∈ s.nodes, p.2.kind = "type" →
        p.2.children = [] ∧ p.2.eager = [] :=
  build_summary_type_nodes_empty g0 false 0 (by decide) (by decide)
    (by decide) ClassKind.ns (by decide) (by decide)

end DepsOnDemand
